import Mathlib

/-!
Verification of the BIC-exporter table-reconstruction engine
(`src/native/bic_exporter/src/lib.rs`).

The Rust code is shallowly embedded: Rust `String`s become `List Char`,
`f32` coordinates become `ℚ` (the claims under study are about the
control/data flow of the extraction pipeline, not about floating-point
rounding; all concrete inputs use small exactly-representable values),
and the one floating-point-specific constant `f32::MAX` becomes the exact
rational value of that float.  Rust's stable `sort_by` with `total_cmp`
is modelled by `List.insertionSort` with the corresponding reflexive
total relation: every stable sort computes the same list, and `total_cmp`
agrees with the numeric order on the (finite, non-NaN, no negative zero)
rationals we substitute for floats.  `BTreeMap<i32, Vec<_>>` is modelled
by an association list kept sorted by key (ascending), with per-key
insertion appending at the end of the bucket, which is exactly
`entry().or_default().push(..)` followed by ascending-key iteration;
bucket keys are modelled as `ℤ` (the i32 cast never wraps for the page
coordinates of interest).  PDF string payloads are modelled
post-decoding (`decode_pdf_string` is byte-level UTF-16BE/Latin-1
decoding, orthogonal to every claim, so `TextDraw` carries the decoded
text directly).  Pages whose `contents` are `None` are modelled as
`none`; page read/parse errors of the external PDF library are outside
the embedded program.
-/

namespace BicExporter

/-- Rust `String`, embedded as a list of characters. -/
abbrev Str := List Char

/-- Default line height when TextNewline operator doesn't specify leading
(`DEFAULT_LINE_HEIGHT: f32 = 12.0`). -/
def DEFAULT_LINE_HEIGHT : ℚ := 12

/-- Threshold for detecting word spaces in TJ operator arrays
(`SPACE_THRESHOLD: f32 = -100.0`). -/
def SPACE_THRESHOLD : ℚ := -100

/-- PDF text spacing is in thousandths of the text space unit
(`SPACING_DIVISOR: f32 = 1000.0`). -/
def SPACING_DIVISOR : ℚ := 1000

/-- Tolerance for grouping text elements into the same row
(`Y_TOLERANCE: f32 = 3.0`). -/
def Y_TOLERANCE : ℚ := 3

/-- Tolerance for detecting vertical lines
(`VERTICAL_LINE_TOLERANCE: f32 = 1.0`). -/
def VERTICAL_LINE_TOLERANCE : ℚ := 1

/-- Tolerance for deduplicating detected vertical lines
(`LINE_DEDUP_TOLERANCE: f32 = 2.0`). -/
def LINE_DEDUP_TOLERANCE : ℚ := 2

/-- Required number of column boundaries
(`REQUIRED_BOUNDARIES: usize = 11`). -/
def REQUIRED_BOUNDARIES : ℕ := 11

/-- Exact rational value of `f32::MAX` = (2 - 2⁻²³)·2¹²⁷, the sentinel the
Rust code appends as the terminal column boundary. -/
def F32_MAX : ℚ := 340282346638528859811704183484516925440

/-- The fixed CSV header schema (`pub const HEADERS: [&str; 10]`). -/
def HEADERS : List Str :=
  ["Record creation date".toList,
   "Last Update date".toList,
   "BIC".toList,
   "Brch Code".toList,
   "Full legal name".toList,
   "Registered address".toList,
   "Operational address".toList,
   "Branch description".toList,
   "Branch address".toList,
   "Instit. Type".toList]

/-- The `headers()` NIF: returns `HEADERS.to_vec()`. -/
def headers : List Str := HEADERS

/-- Rust `str::trim_start`: drop leading whitespace. -/
def trimLeft (s : Str) : Str := s.dropWhile Char.isWhitespace

/-- Rust `str::trim_end`: drop trailing whitespace. -/
def trimRight (s : Str) : Str := (s.reverse.dropWhile Char.isWhitespace).reverse

/-- Rust `str::trim`: drop leading and trailing whitespace. -/
def trim (s : Str) : Str := trimRight (trimLeft s)

/-- Rust `str::split(c)`: split on every occurrence of `c`, keeping empty
parts; the result is never the empty list. -/
def splitOnChar (c : Char) : Str → List Str
  | [] => [[]]
  | a :: rest =>
    if a = c then [] :: splitOnChar c rest
    else
      match splitOnChar c rest with
      | [] => [[a]]
      | p :: ps => (a :: p) :: ps

/-- Accumulator-passing helper for `split_whitespace` (current word is
held reversed). -/
def split_whitespace_aux : Str → Str → List Str
  | [], cur => if cur.isEmpty then [] else [cur.reverse]
  | c :: rest, cur =>
    if c.isWhitespace then
      if cur.isEmpty then split_whitespace_aux rest []
      else cur.reverse :: split_whitespace_aux rest []
    else split_whitespace_aux rest (c :: cur)

/-- Rust `str::split_whitespace`: maximal non-whitespace runs, in order. -/
def split_whitespace (s : Str) : List Str := split_whitespace_aux s []

/-- Rust `Vec<String>::join(" ")`: interleave a single space between the
pieces (empty pieces included). -/
def joinSpace : List Str → Str
  | [] => []
  | [s] => s
  | s :: rest => s ++ ' ' :: joinSpace rest

/-- The per-column clean-up in `assign_cells_to_columns`:
`s.split_whitespace().collect::<Vec<_>>().join(" ")`. -/
def normalize_whitespace (s : Str) : Str := joinSpace (split_whitespace s)

/-- Rust `str::contains(needle)` on already-lowercased text. -/
def strContains (haystack needle : Str) : Bool :=
  match haystack with
  | [] => needle.isEmpty
  | _ :: t => needle.isPrefixOf haystack || strContains t needle

/-- A text element extracted from the PDF with its page position
(struct `TextElement`). -/
structure TextElement where
  text : Str
  x : ℚ
  y : ℚ
deriving DecidableEq

/-- A reconstructed row of text elements grouped by Y coordinate
(struct `TableRow`). -/
structure TableRow where
  y : ℚ
  cells : List (ℚ × Str)
deriving DecidableEq

/-- Items of a `TJ` array (`pdf::content::TextDrawAdjusted`): decoded text
runs or numeric spacing adjustments. -/
inductive TJItem where
  | text (s : Str)
  | spacing (sp : ℚ)
deriving DecidableEq

/-- The subset of `pdf::content::Op` the extractor inspects; every other
operator is `other` (the code ignores them).  Text payloads are carried
post-decoding. -/
inductive Op where
  | textNewline
  | moveTextPosition (dx dy : ℚ)
  | setTextMatrix (e f : ℚ)
  | beginText
  | textDraw (text : Str)
  | textDrawAdjusted (array : List TJItem)
  | moveTo (x y : ℚ)
  | lineTo (x y : ℚ)
  | other
deriving DecidableEq

/-- Inner loop of the `Op::TextDrawAdjusted` arm: fold the TJ array,
building the combined text and updating `current_x`; returns
`(combined_text, current_x)`. -/
def tj_loop : List TJItem → Str → ℚ → Str × ℚ
  | [], combined, cx => (combined, cx)
  | .text s :: rest, combined, cx => tj_loop rest (combined ++ s) cx
  | .spacing sp :: rest, combined, cx =>
    tj_loop rest (if sp < SPACE_THRESHOLD then combined ++ [' '] else combined)
      (cx - sp / SPACING_DIVISOR)

/-- Main loop of `extract_text_from_ops`, threading
`(current_x, current_y, text_matrix_x)` (the source's `_text_matrix_y` is
never read and is omitted). -/
def extract_text_loop : List Op → ℚ → ℚ → ℚ → List TextElement
  | [], _, _, _ => []
  | op :: rest, cx, cy, tmx =>
    match op with
    | .textNewline => extract_text_loop rest tmx (cy - DEFAULT_LINE_HEIGHT) tmx
    | .moveTextPosition dx dy => extract_text_loop rest (cx + dx) (cy + dy) tmx
    | .setTextMatrix e f => extract_text_loop rest e f e
    | .beginText => extract_text_loop rest 0 0 tmx
    | .textDraw t =>
      if (trim t).isEmpty then extract_text_loop rest cx cy tmx
      else ⟨t, cx, cy⟩ :: extract_text_loop rest cx cy tmx
    | .textDrawAdjusted arr =>
      let res := tj_loop arr [] cx
      if (trim res.1).isEmpty then extract_text_loop rest res.2 cy tmx
      else ⟨res.1, cx, cy⟩ :: extract_text_loop rest res.2 cy tmx
    | .moveTo _ _ => extract_text_loop rest cx cy tmx
    | .lineTo _ _ => extract_text_loop rest cx cy tmx
    | .other => extract_text_loop rest cx cy tmx

/-- `extract_text_from_ops`: walk the operator stream and emit positioned
text fragments. -/
def extract_text_from_ops (ops : List Op) : List TextElement :=
  extract_text_loop ops 0 0 0

/-- Rust `f32::round`: round half away from zero. -/
def roundAway (q : ℚ) : ℤ := if 0 ≤ q then ⌊q + 1 / 2⌋ else ⌈q - 1 / 2⌉

/-- Row-grouping bucket: `(elem.y / y_tolerance).round() as i32`. -/
def y_key (y_tolerance : ℚ) (y : ℚ) : ℤ := roundAway (y / y_tolerance)

/-- Insert into the `BTreeMap<i32, Vec<(f32, String)>>` model: keys kept
strictly ascending, the new value appended at the end of its bucket. -/
def insertAssoc (k : ℤ) (v : ℚ × Str) :
    List (ℤ × List (ℚ × Str)) → List (ℤ × List (ℚ × Str))
  | [] => [(k, [v])]
  | (k₁, vs) :: rest =>
    if k = k₁ then (k₁, vs ++ [v]) :: rest
    else if k < k₁ then (k, [v]) :: (k₁, vs) :: rest
    else (k₁, vs) :: insertAssoc k v rest

/-- `group_into_rows`: bucket fragments by quantized `y`, sort cells by
ascending `x`, rows by descending representative `y`. -/
def group_into_rows (elements : List TextElement) (y_tolerance : ℚ) : List TableRow :=
  if elements.isEmpty then []
  else
    let rows_map := elements.foldl
      (fun m e => insertAssoc (y_key y_tolerance e.y) (e.x, e.text) m) []
    let rows := rows_map.map fun kv =>
      TableRow.mk ((kv.1 : ℚ) * y_tolerance)
        (List.insertionSort (fun a b : ℚ × Str => a.1 ≤ b.1) kv.2)
    List.insertionSort (fun a b : TableRow => b.y ≤ a.y) rows

/-- Scan loop of `extract_column_boundaries_from_ops`, threading
`last_move_x`. -/
def vertical_lines_scan : List Op → Option ℚ → List ℚ
  | [], _ => []
  | op :: rest, last_move_x =>
    match op with
    | .moveTo x _ => vertical_lines_scan rest (some x)
    | .lineTo x _ =>
      (match last_move_x with
       | some move_x =>
         if |move_x - x| < VERTICAL_LINE_TOLERANCE then
           move_x :: vertical_lines_scan rest none
         else vertical_lines_scan rest none
       | none => vertical_lines_scan rest none)
    | _ => vertical_lines_scan rest last_move_x

/-- Helper for `Vec::dedup_by`: drop each element lying within the
tolerance of the last *retained* element. -/
def dedup_aux (kept : ℚ) : List ℚ → List ℚ
  | [] => []
  | b :: rest =>
    if |b - kept| < LINE_DEDUP_TOLERANCE then dedup_aux kept rest
    else b :: dedup_aux b rest

/-- `vertical_lines.dedup_by(|a, b| (*a - *b).abs() < LINE_DEDUP_TOLERANCE)`. -/
def dedup_by_tol : List ℚ → List ℚ
  | [] => []
  | a :: rest => a :: dedup_aux a rest

/-- `extract_column_boundaries_from_ops`: detect vertical separator lines,
sort, dedup, and append the `f32::MAX` end boundary when non-empty. -/
def extract_column_boundaries_from_ops (ops : List Op) : List ℚ :=
  let vertical_lines := vertical_lines_scan ops none
  let sorted := List.insertionSort (fun a b : ℚ => a ≤ b) vertical_lines
  let deduped := dedup_by_tol sorted
  if deduped.isEmpty then [] else deduped ++ [F32_MAX]

/-- The inner `for i in 0..num_columns` scan of `assign_cells_to_columns`
with its `break`: index of the first interval `[b[i], b[i+1])` containing
`x`, if any. -/
def find_column (boundaries : List ℚ) (x : ℚ) : Option ℕ :=
  match boundaries with
  | b₀ :: b₁ :: rest =>
    if b₀ ≤ x ∧ x < b₁ then some 0 else (find_column (b₁ :: rest) x).map (· + 1)
  | _ => none

/-- Accumulator update in `assign_cells_to_columns`: push a space first
when the column is already non-empty. -/
def appendSpaced (acc t : Str) : Str := if acc.isEmpty then t else acc ++ ' ' :: t

/-- Body of the outer `for (x, text) in &row.cells` loop of
`assign_cells_to_columns`: place one cell into the first matching column,
or drop it when no interval contains its `x`. -/
def place_cell (boundaries : List ℚ) (cols : List Str) (cell : ℚ × Str) : List Str :=
  match find_column boundaries cell.1 with
  | some i => cols.set i (appendSpaced (cols.getD i []) cell.2)
  | none => cols

/-- `assign_cells_to_columns`: place each cell into the first matching
column interval, then normalize the whitespace of every column. -/
def assign_cells_to_columns (row : TableRow) (boundaries : List ℚ) : List Str :=
  let num_columns := boundaries.length - 1
  (row.cells.foldl (place_cell boundaries) (List.replicate num_columns [])).map
    normalize_whitespace

/-- `is_header_row`: case-insensitive containment of the fixed header
phrases (note `&&` binds tighter than `||`, as in the source). -/
def is_header_row (cells : List Str) : Bool :=
  let combined := (joinSpace cells).map Char.toLower
  strContains combined "record".toList && strContains combined "creation".toList
    || strContains combined "last update".toList
    || strContains combined "brch code".toList
    || strContains combined "bic brch".toList
    || strContains combined "full legal name".toList
    || strContains combined "instit. type".toList
    || strContains combined "inst. type".toList
    || strContains combined "iso bic directory".toList
    || strContains combined "registration authority".toList
    || strContains combined "iso 9362".toList

/-- `is_data_row`: the first cell, trimmed, must be ≥ 10 chars, split on
`-` into ≥ 3 parts with a 4-ASCII-digit first part, a 2-char second part
and a ≥ 2-char third part. -/
def is_data_row (cells : List Str) : Bool :=
  match cells with
  | [] => false
  | c₀ :: _ =>
    if c₀.isEmpty then false
    else
      let first := trim c₀
      if 10 ≤ first.length then
        match splitOnChar '-' first with
        | p₀ :: p₁ :: p₂ :: _ =>
          p₀.length = 4 && p₀.all Char.isDigit && p₁.length = 2 && 2 ≤ p₂.length
        | _ => false
      else false

/-- `merge_continuation_row`: append each non-empty continuation cell
(space-separated) to the record field at the same index; indices beyond
either list are left alone. -/
def merge_continuation_row : List Str → List Str → List Str
  | [], _ => []
  | record, [] => record
  | r :: rs, c :: cs =>
    (if c.isEmpty then r else if r.isEmpty then c else r ++ ' ' :: c) ::
      merge_continuation_row rs cs

/-- The record-reconstruction loop of `process_page_rows` (lines 388–421):
fold over the page's rows threading `current_record`, flushing the still
open record after the last row. -/
def record_loop (boundaries : List ℚ) :
    List TableRow → Option (List Str) → List (List Str) → List (List Str)
  | [], current_record, records => records ++ current_record.toList
  | row :: rest, current_record, records =>
    let cells := assign_cells_to_columns row boundaries
    if cells.all List.isEmpty then record_loop boundaries rest current_record records
    else if is_header_row cells then record_loop boundaries rest current_record records
    else if is_data_row cells then
      record_loop boundaries rest (some (cells.map trim)) (records ++ current_record.toList)
    else
      match current_record with
      | some r => record_loop boundaries rest (some (merge_continuation_row r cells)) records
      | none => record_loop boundaries rest none records

/-- `process_page_rows`: extract positioned text, group into rows and run
the record-reconstruction loop, starting from `current_record = None`. -/
def process_page_rows (ops : List Op) (boundaries : List ℚ) : List (List Str) :=
  let elements := extract_text_from_ops ops
  if elements.isEmpty then []
  else
    let rows := group_into_rows elements Y_TOLERANCE
    if rows.isEmpty then []
    else record_loop boundaries rows none []

/-- Page loop of `extract_table_from_file`, threading the page index, the
once-resolved boundaries and the accumulated rows.  A `none` page models
`page.contents == None` (skipped). -/
def extract_loop :
    List (Option (List Op)) → ℕ → Option (List ℚ) → List (List Str) →
      Except Str (List (List Str))
  | [], _, _, all_rows => .ok all_rows
  | page :: rest, page_num, boundaries, all_rows =>
    if page_num = 0 then extract_loop rest (page_num + 1) boundaries all_rows
    else
      match page with
      | none => extract_loop rest (page_num + 1) boundaries all_rows
      | some ops =>
        match boundaries with
        | some b =>
          extract_loop rest (page_num + 1) (some b) (all_rows ++ process_page_rows ops b)
        | none =>
          let detected := extract_column_boundaries_from_ops ops
          if REQUIRED_BOUNDARIES ≤ detected.length then
            let b := detected.take REQUIRED_BOUNDARIES
            extract_loop rest (page_num + 1) (some b) (all_rows ++ process_page_rows ops b)
          else
            .error "Failed to detect column boundaries from PDF".toList

/-- `extract_table_from_file`: process every page except the cover page
(index 0), resolving column boundaries on the first page that has content
operations. -/
def extract_table_from_file (pages : List (Option (List Op))) :
    Except Str (List (List Str)) :=
  extract_loop pages 0 none []

/-! Specification-side definitions, written from the spec's / claims'
words, to be compared with the code-derived definitions above. -/

/-- Spec wording of the data-row predicate (claim C6): the first column,
trimmed, is at least 10 characters long, splits on `-` into at least 3
parts, the first part is exactly 4 ASCII digits, the second part is
exactly 2 characters, and the third part is at least 2 characters. -/
def data_row_shape (cells : List Str) : Bool :=
  match cells.head? with
  | none => false
  | some c₀ =>
    let first := trim c₀
    decide (10 ≤ first.length) &&
      match splitOnChar '-' first with
      | p₀ :: p₁ :: p₂ :: _ =>
        p₀.length = 4 && p₀.all Char.isDigit && p₁.length = 2 && 2 ≤ p₂.length
      | _ => false

/-- Spec wording of the calendar-date pattern `YYYY-MM-DD` (claim C4):
exactly four digits, a dash, two digits, a dash, two digits. -/
def matches_yyyy_mm_dd (s : Str) : Bool :=
  match s with
  | [y₁, y₂, y₃, y₄, d₁, m₁, m₂, d₂, a₁, a₂] =>
    y₁.isDigit && y₂.isDigit && y₃.isDigit && y₄.isDigit && d₁ = '-' &&
      m₁.isDigit && m₂.isDigit && d₂ = '-' && a₁.isDigit && a₂.isDigit
  | _ => false

/-- Collapse equal consecutive keys (used to express "distinct buckets"
of a sorted key list on the spec side of claim C8). -/
def dedupConsec : List ℤ → List ℤ
  | [] => []
  | [a] => [a]
  | a :: b :: rest => if a = b then dedupConsec (b :: rest) else a :: dedupConsec (b :: rest)

/-- Lookup in the sorted-association-list model of the `BTreeMap` (proof
helper): the bucket stored under key `k`, or `[]` when absent. -/
def lookupA : List (ℤ × List (ℚ × Str)) → ℤ → List (ℚ × Str)
  | [], _ => []
  | (k₁, vs) :: rest, k => if k = k₁ then vs else lookupA rest k

/-- Spec wording of row grouping (claim C8): quantize each fragment's `y`
into a bucket, take the distinct buckets in descending order, and for each
bucket one row whose representative `y` is `bucket * tolerance` and whose
cells are the fragments of that bucket sorted by ascending `x`. -/
def rows_spec (elements : List TextElement) (y_tolerance : ℚ) : List TableRow :=
  let keys := dedupConsec (List.insertionSort (fun a b : ℤ => a ≤ b)
    (elements.map fun e => y_key y_tolerance e.y))
  ((keys.map fun k : ℤ =>
      TableRow.mk ((k : ℚ) * y_tolerance)
        (List.insertionSort (fun a b : ℚ × Str => a.1 ≤ b.1)
          ((elements.filter fun e => y_key y_tolerance e.y = k).map fun e =>
            (e.x, e.text))))).reverse

/-- The operator stream of the first non-cover page that has contents —
the page the code resolves column boundaries from (claim C3). -/
def first_content_ops (pages : List (Option (List Op))) : Option (List Op) :=
  (pages.drop 1).findSome? id

/-! Concrete input documents for counterexamples and witnesses. -/

/-- A vertical separator line at horizontal position `x`. -/
def vline (x : ℚ) : List Op := [Op.moveTo x 0, Op.lineTo x 500]

/-- Ten distinct vertical lines (the layout the extractor expects: they
yield exactly `REQUIRED_BOUNDARIES` boundaries including the sentinel). -/
def lines10 : List Op := (List.range 10).flatMap fun i => vline (30 * i)

/-- Eleven distinct vertical lines (one more separator than the expected
layout; spacing 3 exceeds the dedup tolerance 2). -/
def lines11 : List Op := (List.range 11).flatMap fun i => vline (3 * i)

/-- Page whose last row opens a record that is still open at page end. -/
def c1page1 : List Op :=
  lines10 ++ [Op.setTextMatrix 5 100, Op.textDraw "2021-05-22".toList]

/-- Page starting with a continuation row (no date in the first column). -/
def c1page2 : List Op := [Op.setTextMatrix 125 100, Op.textDraw "wrapped".toList]

/-- Two-page document (after the cover) with a record open across the
page boundary. -/
def c1pages : List (Option (List Op)) := [none, some c1page1, some c1page2]

/-- Page with eleven distinct vertical lines, a data row in the first
column and trailing content at `x = 100`, beyond the eleventh line. -/
def c2page : List Op :=
  lines11 ++ [Op.setTextMatrix (1 / 2) 100, Op.textDraw "0000-11-22".toList,
    Op.setTextMatrix 100 100, Op.textDraw "TRAILING".toList]

/-- One-page document (after the cover) for claim C2. -/
def c2pages : List (Option (List Op)) := [none, some c2page]

/-- Content page with text but no vertical lines at all. -/
def c3page1 : List Op := [Op.setTextMatrix 5 100, Op.textDraw "sometext".toList]

/-- Later page with the full ten-line layout and a data row. -/
def c3page2 : List Op :=
  lines10 ++ [Op.setTextMatrix 5 100, Op.textDraw "2021-05-22".toList]

/-- Document whose first content page yields too few boundaries while a
later page yields enough. -/
def c3pages : List (Option (List Op)) := [none, some c3page1, some c3page2]

/-- Page whose single data row has a first column passing the syntactic
date-shape check without being a calendar date, and a non-date second
column. -/
def c4page : List Op :=
  lines10 ++ [Op.setTextMatrix 5 100, Op.textDraw "0000-ab-cd".toList,
    Op.setTextMatrix 35 100, Op.textDraw "nope".toList]

/-- One-page document (after the cover) for claim C4. -/
def c4pages : List (Option (List Op)) := [none, some c4page]

/-- The single record the extractor emits for `c4pages`. -/
def c4record : List Str :=
  ["0000-ab-cd".toList, "nope".toList, [], [], [], [], [], [], [], []]

/-- The single record the extractor emits for `c1pages`: the page-2
continuation text `"wrapped"` is absent. -/
def c1record : List Str :=
  ["2021-05-22".toList, [], [], [], [], [], [], [], [], []]

/-- The single record the extractor emits for `c2pages`: the trailing
cell `"TRAILING"` at `x = 100` is dropped because the truncated
boundaries end at the eleventh separator line (30), not at the
unbounded sentinel. -/
def c2record : List Str :=
  ["0000-11-22".toList, [], [], [], [], [], [], [], [], []]

/-! Theorems.  Helper lemmas come first; each claim's theorem (and its
witness or counterexample) stands alone and is used by nothing else. -/

/-- Finding a column always yields an index with a right interval edge. -/
theorem find_column_lt {b : List ℚ} {x : ℚ} {i : ℕ}
    (h : find_column b x = some i) : i + 1 < b.length := by
  induction b generalizing i with
  | nil => simp [find_column] at h
  | cons b₀ rest ih =>
    cases rest with
    | nil => simp [find_column] at h
    | cons b₁ rest' =>
      by_cases hx : b₀ ≤ x ∧ x < b₁
      · simp only [find_column, if_pos hx, Option.some_inj] at h
        subst h
        simp only [List.length_cons]
        omega
      · simp only [find_column, if_neg hx, Option.map_eq_some'] at h
        obtain ⟨i', hi', rfl⟩ := h
        have := ih hi'
        simp only [List.length_cons] at this ⊢
        omega

/-- Characterization of `find_column`: it returns exactly the first index
whose half-open interval `[b[i], b[i+1])` contains `x`. -/
theorem find_column_iff (b : List ℚ) (x : ℚ) :
    ∀ i, find_column b x = some i ↔
      (i + 1 < b.length ∧ b.getD i 0 ≤ x ∧ x < b.getD (i + 1) 0 ∧
        ∀ j, j < i → ¬(b.getD j 0 ≤ x ∧ x < b.getD (j + 1) 0)) := by
  induction b with
  | nil => intro i; simp [find_column]
  | cons b₀ rest ih =>
    cases rest with
    | nil =>
      intro i
      simp only [find_column, List.length_cons, List.length_nil]
      constructor
      · intro h; cases h
      · rintro ⟨h, -⟩; omega
    | cons b₁ rest' =>
      intro i
      by_cases hx : b₀ ≤ x ∧ x < b₁
      · simp only [find_column, if_pos hx]
        constructor
        · intro h
          obtain rfl : i = 0 := by simpa using h.symm
          refine ⟨by simp only [List.length_cons]; omega,
            by simpa using hx.1, by simpa using hx.2, ?_⟩
          intro j hj; omega
        · rintro ⟨-, -, -, hfirst⟩
          cases i with
          | zero => rfl
          | succ m =>
            exact absurd (by simpa using hx) (hfirst 0 (Nat.succ_pos m))
      · simp only [find_column, if_neg hx, Option.map_eq_some']
        cases i with
        | zero =>
          constructor
          · rintro ⟨m, -, h⟩; omega
          · rintro ⟨-, h₁, h₂, -⟩
            exact absurd ⟨by simpa using h₁, by simpa using h₂⟩ hx
        | succ m =>
          have hshift : (∀ j, j < m + 1 →
                ¬((b₀ :: b₁ :: rest').getD j 0 ≤ x ∧ x < (b₀ :: b₁ :: rest').getD (j + 1) 0)) ↔
              (¬(b₀ ≤ x ∧ x < b₁) ∧ ∀ j, j < m →
                ¬((b₁ :: rest').getD j 0 ≤ x ∧ x < (b₁ :: rest').getD (j + 1) 0)) := by
            constructor
            · intro h
              refine ⟨by simpa using h 0 (Nat.succ_pos m), fun j hj => ?_⟩
              simpa using h (j + 1) (Nat.succ_lt_succ hj)
            · rintro ⟨h0, hs⟩ j hj
              cases j with
              | zero => simpa using h0
              | succ j' => simpa using hs j' (Nat.lt_of_succ_lt_succ hj)
          rw [hshift]
          constructor
          · rintro ⟨k, hfind, hk⟩
            obtain rfl : m = k := by omega
            obtain ⟨hlen, hle, hlt, hfirst⟩ := (ih m).mp hfind
            refine ⟨?_, by simpa using hle, by simpa using hlt, hx, hfirst⟩
            simp only [List.length_cons] at hlen ⊢
            omega
          · rintro ⟨hlen, hle, hlt, -, hfirst⟩
            refine ⟨m, (ih m).mpr ⟨?_, by simpa using hle, by simpa using hlt, hfirst⟩, rfl⟩
            simp only [List.length_cons] at hlen ⊢
            omega

/-- The cell-placing fold preserves the number of columns. -/
theorem foldl_place_length (b : List ℚ) (cells : List (ℚ × Str)) (cols : List Str) :
    (cells.foldl (place_cell b) cols).length = cols.length := by
  induction cells generalizing cols with
  | nil => rfl
  | cons cell cells ih =>
    simp only [List.foldl_cons]
    rw [ih]
    unfold place_cell
    cases find_column b cell.1 <;> simp

/-- Behaviour of `place_cell` when no interval contains the cell's x. -/
theorem place_cell_none {b : List ℚ} {cols : List Str} {cell : ℚ × Str}
    (h : find_column b cell.1 = none) : place_cell b cols cell = cols := by
  unfold place_cell
  rw [h]

/-- Behaviour of `place_cell` when interval `i` is the first match. -/
theorem place_cell_some {b : List ℚ} {cols : List Str} {cell : ℚ × Str} {i : ℕ}
    (h : find_column b cell.1 = some i) :
    place_cell b cols cell = cols.set i (appendSpaced (cols.getD i []) cell.2) := by
  unfold place_cell
  rw [h]

/-- Column `i` of the cell-placing fold accumulates, via `appendSpaced`,
exactly the texts of the cells whose first matching interval is `i`. -/
theorem foldl_place_getD (b : List ℚ) (cells : List (ℚ × Str)) (cols : List Str)
    (i : ℕ) (hi : i < cols.length) :
    (cells.foldl (place_cell b) cols).getD i [] =
      ((cells.filter fun c => find_column b c.1 = some i).map (fun c => c.2)).foldl
        appendSpaced (cols.getD i []) := by
  induction cells generalizing cols with
  | nil => rfl
  | cons cell cells ih =>
    simp only [List.foldl_cons, List.filter_cons]
    by_cases hc : find_column b cell.1 = some i
    · have hpl := @place_cell_some b cols cell i hc
      have hlen : i < (place_cell b cols cell).length := by
        rw [hpl]; simpa using hi
      have hacc : (place_cell b cols cell).getD i [] = appendSpaced (cols.getD i []) cell.2 := by
        rw [hpl, List.getD_eq_getElem _ _ (by simpa using hi)]
        exact List.getElem_set_self _
      rw [if_pos (show decide (find_column b cell.1 = some i) = true by simp [hc]),
        List.map_cons, List.foldl_cons, ih _ hlen, hacc]
    · have hskip : (place_cell b cols cell).getD i [] = cols.getD i [] ∧
          i < (place_cell b cols cell).length := by
        cases hfc : find_column b cell.1 with
        | none => rw [place_cell_none hfc]; exact ⟨rfl, hi⟩
        | some j =>
          have hji : j ≠ i := fun h => hc (h ▸ hfc)
          rw [place_cell_some hfc]
          refine ⟨?_, by simpa using hi⟩
          rw [List.getD_eq_getElem _ _ (by simpa using hi), List.getD_eq_getElem _ _ hi]
          exact List.getElem_set_ne hji _
      rw [if_neg (show ¬decide (find_column b cell.1 = some i) = true by simp [hc]),
        ih _ hskip.2, hskip.1]

/-- Out-of-range `getD`-free view of mapping normalization over columns. -/
theorem getD_map_normalize (l : List Str) (i : ℕ) (h : i < l.length) :
    (l.map normalize_whitespace).getD i [] = normalize_whitespace (l.getD i []) := by
  rw [List.getD_eq_getElem _ _ (by simpa using h), List.getD_eq_getElem _ _ h]
  exact List.getElem_map _

/-- Claim C6: a row is classified as a data row if and only if its first
column, trimmed, is at least 10 characters long, splits on `-` into at
least 3 parts, the first part is exactly 4 ASCII digits, the second part
is exactly 2 characters, and the third part is at least 2 characters; in
particular `["1997-03-01","2024-06-06"]` and `["2021-05-22"]` are data
rows, while `["2021-05"]`, `["21-05-2021"]`, `["ABCD-05-22"]` and the
empty sequence are not. -/
theorem is_data_row_iff_shape :
    (∀ cells, is_data_row cells = data_row_shape cells)
    ∧ is_data_row ["1997-03-01".toList, "2024-06-06".toList] = true
    ∧ is_data_row ["2021-05-22".toList] = true
    ∧ is_data_row ["2021-05".toList] = false
    ∧ is_data_row ["21-05-2021".toList] = false
    ∧ is_data_row ["ABCD-05-22".toList] = false
    ∧ is_data_row [] = false := by
  refine ⟨?_, by decide, by decide, by decide, by decide, by decide, by decide⟩
  intro cells
  cases cells with
  | nil => rfl
  | cons c₀ rest =>
    by_cases h : c₀.isEmpty
    · have hc : c₀ = [] := by simpa using h
      subst hc
      rfl
    · simp only [is_data_row, data_row_shape, List.head?, h, Bool.false_eq_true,
        if_false]
      by_cases h10 : 10 ≤ (trim c₀).length
      · simp [h10]
      · simp [h10]

/-- Claim C6 witness: the characterization applied at a concrete row. -/
theorem is_data_row_iff_shape_witness :
    is_data_row ["1997-03-01".toList] = data_row_shape ["1997-03-01".toList] :=
  is_data_row_iff_shape.1 ["1997-03-01".toList]

/-- Claim C9: merging an all-empty continuation leaves every field of the
open record unchanged, and in general a non-empty continuation value at an
index is appended space-separated to the record's value at that index,
replacing it when the record's value is empty (an empty continuation value
leaves the field unchanged). -/
theorem merge_continuation_row_spec :
    (∀ record continuation, (∀ c ∈ continuation, c = []) →
        merge_continuation_row record continuation = record)
    ∧ (∀ record continuation (i : ℕ), i < record.length → i < continuation.length →
        (merge_continuation_row record continuation).getD i [] =
          (if (continuation.getD i []).isEmpty then record.getD i []
           else if (record.getD i []).isEmpty then continuation.getD i []
           else record.getD i [] ++ ' ' :: continuation.getD i []))
    ∧ merge_continuation_row
        ["2021-01-01".toList, "".toList, "ABCD1234".toList]
        ["".toList, "continued".toList, "more".toList]
      = ["2021-01-01".toList, "continued".toList, "ABCD1234 more".toList] := by
  refine ⟨?_, ?_, by decide⟩
  · intro record
    induction record with
    | nil => intro continuation _; cases continuation <;> rfl
    | cons r rs ih =>
      intro continuation hall
      cases continuation with
      | nil => rfl
      | cons c cs =>
        have hc : c = [] := hall c (List.mem_cons_self c cs)
        subst hc
        simp only [merge_continuation_row, List.isEmpty_nil, if_true]
        rw [ih cs fun x hx => hall x (List.mem_cons_of_mem _ hx)]
  · intro record
    induction record with
    | nil => intro continuation i hi; exact absurd hi (Nat.not_lt_zero i)
    | cons r rs ih =>
      intro continuation i hi hic
      cases continuation with
      | nil => exact absurd hic (Nat.not_lt_zero i)
      | cons c cs =>
        cases i with
        | zero => simp [merge_continuation_row]
        | succ j =>
          simp only [merge_continuation_row, List.getD_cons_succ]
          exact ih cs j (Nat.lt_of_succ_lt_succ hi) (Nat.lt_of_succ_lt_succ hic)

/-- Claim C9 witness: the merge characterization at concrete inputs. -/
theorem merge_continuation_row_spec_witness :
    merge_continuation_row ["ab".toList] ["".toList, "".toList] = ["ab".toList]
    ∧ (merge_continuation_row ["2021-01-01".toList, "b".toList]
        ["".toList, "xx".toList]).getD 1 [] = "b xx".toList := by
  constructor
  · exact merge_continuation_row_spec.1 ["ab".toList] ["".toList, "".toList] (by decide)
  · rw [merge_continuation_row_spec.2.1 ["2021-01-01".toList, "b".toList]
      ["".toList, "xx".toList] 1 (by decide) (by decide)]
    decide

/-- Claim C10: in column-boundary detection only the first LineTo after a
MoveTo can record a boundary candidate: a LineTo consumes the pending
MoveTo x (the scan continues with no pending MoveTo), a LineTo with no
pending MoveTo yields no candidate, a MoveTo replaces the pending x, a
later LineTo of the same polyline yields nothing, and operators other
than MoveTo/LineTo leave the pending state unchanged. -/
theorem vertical_lines_scan_spec :
    (∀ x y rest (s : Option ℚ),
        vertical_lines_scan (Op.lineTo x y :: rest) s =
          (match s with
           | some move_x =>
             if |move_x - x| < VERTICAL_LINE_TOLERANCE then [move_x] else []
           | none => []) ++ vertical_lines_scan rest none)
    ∧ (∀ x y rest, vertical_lines_scan (Op.lineTo x y :: rest) none =
        vertical_lines_scan rest none)
    ∧ (∀ x y rest s, vertical_lines_scan (Op.moveTo x y :: rest) s =
        vertical_lines_scan rest (some x))
    ∧ (∀ x y x' y' x'' y'' rest s,
        vertical_lines_scan
            (Op.moveTo x y :: Op.lineTo x' y' :: Op.lineTo x'' y'' :: rest) s =
          (if |x - x'| < VERTICAL_LINE_TOLERANCE then [x] else []) ++
            vertical_lines_scan rest none)
    ∧ (∀ op, (∀ x y, op ≠ Op.moveTo x y) → (∀ x y, op ≠ Op.lineTo x y) →
        ∀ rest s, vertical_lines_scan (op :: rest) s = vertical_lines_scan rest s) := by
  have hline : ∀ x y rest (s : Option ℚ),
      vertical_lines_scan (Op.lineTo x y :: rest) s =
        (match s with
         | some move_x =>
           if |move_x - x| < VERTICAL_LINE_TOLERANCE then [move_x] else []
         | none => []) ++ vertical_lines_scan rest none := by
    intro x y rest s
    cases s with
    | none => rfl
    | some move_x =>
      by_cases h : |move_x - x| < VERTICAL_LINE_TOLERANCE <;>
        simp [vertical_lines_scan, h]
  refine ⟨hline, fun x y rest => hline x y rest none, fun _ _ _ _ => rfl, ?_, ?_⟩
  · intro x y x' y' x'' y'' rest s
    rw [show vertical_lines_scan
        (Op.moveTo x y :: Op.lineTo x' y' :: Op.lineTo x'' y'' :: rest) s =
        vertical_lines_scan (Op.lineTo x' y' :: Op.lineTo x'' y'' :: rest) (some x)
      from rfl, hline, hline]
    rfl
  · intro op h₁ h₂ rest s
    cases op with
    | moveTo x y => exact absurd rfl (h₁ x y)
    | lineTo x y => exact absurd rfl (h₂ x y)
    | textNewline => rfl
    | moveTextPosition dx dy => rfl
    | setTextMatrix e f => rfl
    | beginText => rfl
    | textDraw t => rfl
    | textDrawAdjusted a => rfl
    | other => rfl

/-- Claim C10 witness: the scan equations at concrete operators. -/
theorem vertical_lines_scan_spec_witness :
    vertical_lines_scan [Op.lineTo 5 0] none = vertical_lines_scan [] none
    ∧ vertical_lines_scan (Op.other :: [Op.moveTo 1 0]) (some 7) =
        vertical_lines_scan [Op.moveTo 1 0] (some 7) := by
  constructor
  · exact vertical_lines_scan_spec.2.1 5 0 []
  · exact vertical_lines_scan_spec.2.2.2.2 Op.other (by intro x y h; cases h)
      (by intro x y h; cases h) [Op.moveTo 1 0] (some 7)

/-- Claim C7: with `n+1` boundary thresholds, cell assignment returns
exactly `n` strings; each cell's text is appended (space-separated when
the accumulator is non-empty, via `appendSpaced`) to the accumulator of
the first interval `[b[i], b[i+1])` containing its x (a cell contained in
no interval is dropped — it is in no column's filtered list); each
column is whitespace-normalized, so a column with no assigned cell is the
empty string (`normalize_whitespace` of the empty accumulator). -/
theorem assign_cells_columns_spec :
    ∀ (row : TableRow) (boundaries : List ℚ) (n : ℕ), boundaries.length = n + 1 →
      (assign_cells_to_columns row boundaries).length = n
      ∧ (∀ i, i < n →
          (assign_cells_to_columns row boundaries).getD i [] =
            normalize_whitespace
              (((row.cells.filter fun c => find_column boundaries c.1 = some i).map
                  (fun c => c.2)).foldl appendSpaced []))
      ∧ (∀ x i, find_column boundaries x = some i ↔
          (i < n ∧ boundaries.getD i 0 ≤ x ∧ x < boundaries.getD (i + 1) 0 ∧
            ∀ j, j < i → ¬(boundaries.getD j 0 ≤ x ∧ x < boundaries.getD (j + 1) 0))) := by
  intro row boundaries n hb
  have hnum : boundaries.length - 1 = n := by omega
  have hdef : assign_cells_to_columns row boundaries =
      (row.cells.foldl (place_cell boundaries)
        (List.replicate (boundaries.length - 1) [])).map normalize_whitespace := rfl
  have hfoldlen : (row.cells.foldl (place_cell boundaries)
      (List.replicate (boundaries.length - 1) ([] : Str))).length = n := by
    rw [foldl_place_length, List.length_replicate, hnum]
  refine ⟨?_, ?_, ?_⟩
  · rw [hdef, List.length_map, hfoldlen]
  · intro i hi
    have hrep : i < (List.replicate (boundaries.length - 1) ([] : Str)).length := by
      simpa [hnum] using hi
    have hinit : (List.replicate (boundaries.length - 1) ([] : Str)).getD i [] = [] := by
      rw [List.getD_eq_getElem _ _ hrep]
      exact List.getElem_replicate _ _
    rw [hdef, getD_map_normalize _ _ (by rw [hfoldlen]; exact hi),
      foldl_place_getD _ _ _ i hrep, hinit]
  · intro x i
    rw [find_column_iff boundaries x i, hb]
    constructor
    · rintro ⟨h1, h2, h3, h4⟩; exact ⟨by omega, h2, h3, h4⟩
    · rintro ⟨h1, h2, h3, h4⟩; exact ⟨by omega, h2, h3, h4⟩

/-- Claim C7 witness: the characterization applied at a concrete row and
concrete boundaries. -/
theorem assign_cells_columns_spec_witness :
    (assign_cells_to_columns
        ⟨100, [(10, "Col1".toList), (60, "Col2".toList), (110, "Col3".toList)]⟩
        [0, 50, 100, F32_MAX]).length = 3 :=
  (assign_cells_columns_spec
    ⟨100, [(10, "Col1".toList), (60, "Col2".toList), (110, "Col3".toList)]⟩
    [0, 50, 100, F32_MAX] 3 rfl).1

/-- Unfolding equation for `record_loop` on a non-empty row list. -/
theorem record_loop_cons (b : List ℚ) (row : TableRow) (rest : List TableRow)
    (cur : Option (List Str)) (recs : List (List Str)) :
    record_loop b (row :: rest) cur recs =
      (if (assign_cells_to_columns row b).all List.isEmpty then record_loop b rest cur recs
       else if is_header_row (assign_cells_to_columns row b) then record_loop b rest cur recs
       else if is_data_row (assign_cells_to_columns row b) then
         record_loop b rest (some ((assign_cells_to_columns row b).map trim))
           (recs ++ cur.toList)
       else match cur with
         | some r => record_loop b rest
             (some (merge_continuation_row r (assign_cells_to_columns row b))) recs
         | none => record_loop b rest none recs) := rfl

/-- Unfolding equation for `record_loop` at the end of a page. -/
theorem record_loop_nil (b : List ℚ) (cur : Option (List Str)) (recs : List (List Str)) :
    record_loop b [] cur recs = recs ++ cur.toList := rfl

/-- Unfolding equation for `extract_loop` on a non-empty page list. -/
theorem extract_loop_cons (page : Option (List Op)) (rest : List (Option (List Op)))
    (num : ℕ) (bnd : Option (List ℚ)) (acc : List (List Str)) :
    extract_loop (page :: rest) num bnd acc =
      (if num = 0 then extract_loop rest (num + 1) bnd acc
       else match page with
         | none => extract_loop rest (num + 1) bnd acc
         | some ops => match bnd with
           | some b => extract_loop rest (num + 1) (some b) (acc ++ process_page_rows ops b)
           | none =>
             if REQUIRED_BOUNDARIES ≤ (extract_column_boundaries_from_ops ops).length then
               extract_loop rest (num + 1)
                 (some ((extract_column_boundaries_from_ops ops).take REQUIRED_BOUNDARIES))
                 (acc ++ process_page_rows ops
                   ((extract_column_boundaries_from_ops ops).take REQUIRED_BOUNDARIES))
             else Except.error "Failed to detect column boundaries from PDF".toList) := rfl

/-- A data row is never all-empty: its first cell is non-empty. -/
theorem is_data_row_not_all_empty {cells : List Str} (h : is_data_row cells = true) :
    cells.all List.isEmpty = false := by
  cases cells with
  | nil => cases h
  | cons c₀ rest =>
    by_cases hc : c₀.isEmpty
    · rw [is_data_row, if_pos hc] at h
      cases h
    · simp [List.all_cons, hc]

/-- `record_loop` skips an all-empty or header row without a transition. -/
theorem record_loop_skip {b : List ℚ} {row : TableRow}
    (h : (assign_cells_to_columns row b).all List.isEmpty = true
      ∨ is_header_row (assign_cells_to_columns row b) = true)
    (rest : List TableRow) (cur : Option (List Str)) (recs : List (List Str)) :
    record_loop b (row :: rest) cur recs = record_loop b rest cur recs := by
  rw [record_loop_cons]
  by_cases he : (assign_cells_to_columns row b).all List.isEmpty
  · rw [if_pos he]
  · rcases h with h | h
    · exact absurd h he
    · rw [if_neg he, if_pos h]

/-- `record_loop` on a data row: emit the open record, open a new one. -/
theorem record_loop_data {b : List ℚ} {row : TableRow}
    (hhdr : is_header_row (assign_cells_to_columns row b) = false)
    (hdata : is_data_row (assign_cells_to_columns row b) = true)
    (rest : List TableRow) (cur : Option (List Str)) (recs : List (List Str)) :
    record_loop b (row :: rest) cur recs =
      record_loop b rest (some ((assign_cells_to_columns row b).map trim))
        (recs ++ cur.toList) := by
  rw [record_loop_cons, if_neg (by simp [is_data_row_not_all_empty hdata]),
    if_neg (by simp [hhdr]), if_pos hdata]

/-- `record_loop` on a continuation row with an open record: merge. -/
theorem record_loop_merge {b : List ℚ} {row : TableRow}
    (hemp : (assign_cells_to_columns row b).all List.isEmpty = false)
    (hhdr : is_header_row (assign_cells_to_columns row b) = false)
    (hdata : is_data_row (assign_cells_to_columns row b) = false)
    (rest : List TableRow) (r : List Str) (recs : List (List Str)) :
    record_loop b (row :: rest) (some r) recs =
      record_loop b rest (some (merge_continuation_row r (assign_cells_to_columns row b)))
        recs := by
  rw [record_loop_cons, if_neg (by simp [hemp]), if_neg (by simp [hhdr]),
    if_neg (by simp [hdata])]

/-- `record_loop` on a continuation row with no open record: discard. -/
theorem record_loop_discard {b : List ℚ} {row : TableRow}
    (hemp : (assign_cells_to_columns row b).all List.isEmpty = false)
    (hhdr : is_header_row (assign_cells_to_columns row b) = false)
    (hdata : is_data_row (assign_cells_to_columns row b) = false)
    (rest : List TableRow) (recs : List (List Str)) :
    record_loop b (row :: rest) none recs = record_loop b rest none recs := by
  rw [record_loop_cons, if_neg (by simp [hemp]), if_neg (by simp [hhdr]),
    if_neg (by simp [hdata])]

/-- The page loop always skips the cover page (index 0). -/
theorem extract_loop_page0 (page : Option (List Op)) (rest : List (Option (List Op)))
    (bnd : Option (List ℚ)) (acc : List (List Str)) :
    extract_loop (page :: rest) 0 bnd acc = extract_loop rest 1 bnd acc := by
  rw [extract_loop_cons]
  exact if_pos rfl

/-- The page loop skips a page with no contents. -/
theorem extract_loop_none_page {num : ℕ} (h : num ≠ 0) (rest : List (Option (List Op)))
    (bnd : Option (List ℚ)) (acc : List (List Str)) :
    extract_loop (none :: rest) num bnd acc = extract_loop rest (num + 1) bnd acc := by
  rw [extract_loop_cons, if_neg h]

/-- The page loop with resolved boundaries processes the page and keeps
the same boundaries. -/
theorem extract_loop_resolved {num : ℕ} (h : num ≠ 0) (ops : List Op)
    (rest : List (Option (List Op))) (b : List ℚ) (acc : List (List Str)) :
    extract_loop (some ops :: rest) num (some b) acc =
      extract_loop rest (num + 1) (some b) (acc ++ process_page_rows ops b) := by
  rw [extract_loop_cons, if_neg h]

/-- The page loop resolves boundaries on a content page that yields
enough vertical lines, truncating to the required count. -/
theorem extract_loop_detect_ok {num : ℕ} (h : num ≠ 0) {ops : List Op}
    (hdet : REQUIRED_BOUNDARIES ≤ (extract_column_boundaries_from_ops ops).length)
    (rest : List (Option (List Op))) (acc : List (List Str)) :
    extract_loop (some ops :: rest) num none acc =
      extract_loop rest (num + 1)
        (some ((extract_column_boundaries_from_ops ops).take REQUIRED_BOUNDARIES))
        (acc ++ process_page_rows ops
          ((extract_column_boundaries_from_ops ops).take REQUIRED_BOUNDARIES)) := by
  rw [extract_loop_cons, if_neg h]
  exact if_pos hdet

/-- The page loop bails out when the boundary-resolving page yields too
few vertical lines. -/
theorem extract_loop_detect_fail {num : ℕ} (h : num ≠ 0) {ops : List Op}
    (hdet : ¬REQUIRED_BOUNDARIES ≤ (extract_column_boundaries_from_ops ops).length)
    (rest : List (Option (List Op))) (acc : List (List Str)) :
    extract_loop (some ops :: rest) num none acc =
      Except.error "Failed to detect column boundaries from PDF".toList := by
  rw [extract_loop_cons, if_neg h]
  exact if_neg hdet

/-- Merging a continuation row never changes the record's arity. -/
theorem length_merge_continuation_row (record continuation : List Str) :
    (merge_continuation_row record continuation).length = record.length := by
  induction record generalizing continuation with
  | nil => cases continuation <;> rfl
  | cons r rs ih =>
    cases continuation with
    | nil => rfl
    | cons c cs => simp [merge_continuation_row, ih]

/-- Cell assignment always produces `boundaries.len() - 1` columns. -/
theorem length_assign_cells (row : TableRow) (b : List ℚ) :
    (assign_cells_to_columns row b).length = b.length - 1 := by
  show ((row.cells.foldl (place_cell b) (List.replicate (b.length - 1) [])).map
    normalize_whitespace).length = b.length - 1
  rw [List.length_map, foldl_place_length, List.length_replicate]

/-- Arity invariant of the record-reconstruction loop: with 11 boundaries
every record it ever holds or emits has 10 fields. -/
theorem record_loop_length {b : List ℚ} (hb : b.length = 11) :
    ∀ (rows : List TableRow) (cur : Option (List Str)) (recs : List (List Str)),
      (∀ r ∈ recs, r.length = 10) → (∀ r, cur = some r → r.length = 10) →
      ∀ r ∈ record_loop b rows cur recs, r.length = 10 := by
  intro rows
  induction rows with
  | nil =>
    intro cur recs hrecs hcur r hr
    rw [record_loop_nil] at hr
    rcases List.mem_append.mp hr with h | h
    · exact hrecs r h
    · cases cur with
      | none => cases h
      | some c =>
        obtain rfl : r = c := by simpa using h
        exact hcur r rfl
  | cons row rest ih =>
    intro cur recs hrecs hcur r hr
    rw [record_loop_cons] at hr
    by_cases hemp : (assign_cells_to_columns row b).all List.isEmpty
    · rw [if_pos hemp] at hr
      exact ih cur recs hrecs hcur r hr
    · rw [if_neg hemp] at hr
      by_cases hhdr : is_header_row (assign_cells_to_columns row b)
      · rw [if_pos hhdr] at hr
        exact ih cur recs hrecs hcur r hr
      · rw [if_neg hhdr] at hr
        by_cases hdata : is_data_row (assign_cells_to_columns row b)
        · rw [if_pos hdata] at hr
          refine ih _ _ ?_ ?_ r hr
          · intro q hq
            rcases List.mem_append.mp hq with h | h
            · exact hrecs q h
            · cases cur with
              | none => cases h
              | some c =>
                obtain rfl : q = c := by simpa using h
                exact hcur q rfl
          · intro q hq
            obtain rfl : q = (assign_cells_to_columns row b).map trim := by
              simpa using hq.symm
            rw [List.length_map, length_assign_cells, hb]
        · rw [if_neg hdata] at hr
          cases cur with
          | none => exact ih none recs hrecs (by intro q hq; cases hq) r hr
          | some c =>
            refine ih _ recs hrecs ?_ r hr
            intro q hq
            obtain rfl : q = merge_continuation_row c (assign_cells_to_columns row b) := by
              simpa using hq.symm
            rw [length_merge_continuation_row]
            exact hcur c rfl

/-- Arity invariant lifted to a whole page. -/
theorem process_page_rows_length {b : List ℚ} (hb : b.length = 11) (ops : List Op) :
    ∀ r ∈ process_page_rows ops b, r.length = 10 := by
  intro r hr
  unfold process_page_rows at hr
  by_cases helem : (extract_text_from_ops ops).isEmpty
  · rw [if_pos helem] at hr; cases hr
  · rw [if_neg helem] at hr
    by_cases hrows : (group_into_rows (extract_text_from_ops ops) Y_TOLERANCE).isEmpty
    · rw [if_pos hrows] at hr; cases hr
    · rw [if_neg hrows] at hr
      exact record_loop_length hb _ none [] (by intro q hq; cases hq)
        (by intro q hq; cases hq) r hr

/-- Arity invariant of the page loop: whatever pages remain, a successful
extraction only ever returns 10-field records. -/
theorem extract_loop_length :
    ∀ (pages : List (Option (List Op))) (num : ℕ) (bnd : Option (List ℚ))
      (acc records : List (List Str)),
      (∀ r ∈ acc, r.length = 10) → (∀ b, bnd = some b → b.length = 11) →
      extract_loop pages num bnd acc = .ok records → ∀ r ∈ records, r.length = 10 := by
  intro pages
  induction pages with
  | nil =>
    intro num bnd acc records hacc _ h
    obtain rfl : acc = records := by simpa [extract_loop] using h
    exact hacc
  | cons page rest ih =>
    intro num bnd acc records hacc hbnd h
    by_cases hnum : num = 0
    · subst hnum
      rw [extract_loop_page0] at h
      exact ih _ _ _ _ hacc hbnd h
    · cases page with
      | none =>
        rw [extract_loop_none_page hnum] at h
        exact ih _ _ _ _ hacc hbnd h
      | some ops =>
        cases bnd with
        | some b =>
          rw [extract_loop_resolved hnum] at h
          refine ih _ _ _ _ ?_ hbnd h
          intro r hr
          rcases List.mem_append.mp hr with hm | hm
          · exact hacc r hm
          · exact process_page_rows_length (hbnd b rfl) ops r hm
        | none =>
          by_cases hdet : REQUIRED_BOUNDARIES ≤ (extract_column_boundaries_from_ops ops).length
          · rw [extract_loop_detect_ok hnum hdet] at h
            have hlen : ((extract_column_boundaries_from_ops ops).take
                REQUIRED_BOUNDARIES).length = 11 := by
              rw [List.length_take]
              exact Nat.min_eq_left hdet
            refine ih _ _ _ _ ?_ ?_ h
            · intro r hr
              rcases List.mem_append.mp hr with hm | hm
              · exact hacc r hm
              · exact process_page_rows_length hlen ops r hm
            · intro b hbeq
              obtain rfl : (extract_column_boundaries_from_ops ops).take
                  REQUIRED_BOUNDARIES = b := by simpa using hbeq
              exact hlen
          · rw [extract_loop_detect_fail hnum hdet] at h
            cases h

/-- Claim C5: `headers()` returns exactly the fixed ordered sequence of 10
column names, and every record returned by a successful extraction has
exactly 10 fields. -/
theorem headers_and_record_arity :
    (headers.length = 10
      ∧ headers = ["Record creation date".toList, "Last Update date".toList,
          "BIC".toList, "Brch Code".toList, "Full legal name".toList,
          "Registered address".toList, "Operational address".toList,
          "Branch description".toList, "Branch address".toList,
          "Instit. Type".toList])
    ∧ ∀ pages records, extract_table_from_file pages = .ok records →
        ∀ r ∈ records, r.length = 10 := by
  refine ⟨⟨rfl, rfl⟩, ?_⟩
  intro pages records h
  exact extract_loop_length pages 0 none [] records (by intro r hr; cases hr)
    (by intro b hb; cases hb) h

unseal Rat.mul Rat.add Rat.sub Rat.inv in
/-- Claim C5 witness: a concrete successful extraction whose record the
theorem certifies to have 10 fields. -/
theorem headers_and_record_arity_witness : c4record.length = 10 :=
  headers_and_record_arity.2 c4pages [c4record] (by rfl) c4record
    (List.mem_singleton.mpr rfl)

/-- Once boundaries are resolved, the remaining page loop cannot fail. -/
theorem extract_loop_resolved_ok :
    ∀ (rest : List (Option (List Op))) (num : ℕ) (b : List ℚ) (acc : List (List Str)),
      num ≠ 0 → ∃ recs, extract_loop rest num (some b) acc = .ok recs := by
  intro rest
  induction rest with
  | nil => intro num b acc _; exact ⟨acc, rfl⟩
  | cons page rest ih =>
    intro num b acc hnum
    cases page with
    | none =>
      rw [extract_loop_none_page hnum]
      exact ih (num + 1) b acc (Nat.succ_ne_zero num)
    | some ops =>
      rw [extract_loop_resolved hnum]
      exact ih (num + 1) b _ (Nat.succ_ne_zero num)

/-- With unresolved boundaries, the page loop's fate is decided by the
first page (of those remaining) that has contents: no such page means
success with the accumulator, too few lines on it means the layout error,
enough lines means success. -/
theorem extract_loop_unresolved :
    ∀ (pages : List (Option (List Op))) (num : ℕ) (acc : List (List Str)), num ≠ 0 →
      (pages.findSome? id = none → extract_loop pages num none acc = .ok acc)
      ∧ (∀ ops, pages.findSome? id = some ops →
          ((extract_column_boundaries_from_ops ops).length < REQUIRED_BOUNDARIES →
            extract_loop pages num none acc =
              Except.error "Failed to detect column boundaries from PDF".toList)
          ∧ (REQUIRED_BOUNDARIES ≤ (extract_column_boundaries_from_ops ops).length →
            ∃ recs, extract_loop pages num none acc = .ok recs)) := by
  intro pages
  induction pages with
  | nil =>
    intro num acc _
    exact ⟨fun _ => rfl, fun ops h => by cases h⟩
  | cons page rest ih =>
    intro num acc hnum
    cases page with
    | none =>
      have hfind : ((none :: rest : List (Option (List Op))).findSome? id) =
          rest.findSome? id := rfl
      rw [hfind]
      constructor
      · intro h
        rw [extract_loop_none_page hnum]
        exact (ih (num + 1) acc (Nat.succ_ne_zero num)).1 h
      · intro ops h
        rw [extract_loop_none_page hnum]
        exact (ih (num + 1) acc (Nat.succ_ne_zero num)).2 ops h
    | some ops =>
      have hfind : ((some ops :: rest : List (Option (List Op))).findSome? id) =
          some ops := rfl
      rw [hfind]
      constructor
      · intro h; cases h
      · intro ops' h
        obtain rfl : ops' = ops := by simpa using h.symm
        constructor
        · intro hlt
          exact extract_loop_detect_fail hnum (by omega) rest acc
        · intro hge
          rw [extract_loop_detect_ok hnum hge]
          exact extract_loop_resolved_ok rest (num + 1) _ _ (Nat.succ_ne_zero num)

unseal Rat.mul Rat.add Rat.sub Rat.inv in
/-- Claim C3 counterexample: a document whose first content page yields
no vertical lines while its next page yields the full required layout;
the claim says extraction succeeds using the later page's boundaries, but
the code fails with the layout-mismatch error. -/
theorem boundaries_later_page_counterexample :
    extract_table_from_file c3pages =
      Except.error "Failed to detect column boundaries from PDF".toList
    ∧ REQUIRED_BOUNDARIES ≤ (extract_column_boundaries_from_ops c3page2).length
    ∧ (extract_column_boundaries_from_ops c3page1).length < REQUIRED_BOUNDARIES :=
  ⟨by rfl, by decide, by decide⟩

/-- Claim C3 amended: column boundaries are resolved on the first
non-cover page that has contents; extraction fails with the
layout-mismatch error as soon as that page yields fewer than the required
count of boundaries — later pages are never consulted — and succeeds
whenever that page yields enough (a document with no content page yields
the empty record list). -/
theorem boundary_resolution_first_content_page :
    ∀ pages : List (Option (List Op)),
      (first_content_ops pages = none → extract_table_from_file pages = .ok [])
      ∧ (∀ ops, first_content_ops pages = some ops →
          ((extract_column_boundaries_from_ops ops).length < REQUIRED_BOUNDARIES →
            extract_table_from_file pages =
              Except.error "Failed to detect column boundaries from PDF".toList)
          ∧ (REQUIRED_BOUNDARIES ≤ (extract_column_boundaries_from_ops ops).length →
            ∃ records, extract_table_from_file pages = .ok records)) := by
  intro pages
  cases pages with
  | nil => exact ⟨fun _ => rfl, fun ops h => by cases h⟩
  | cons p rest =>
    have hdef : extract_table_from_file (p :: rest) = extract_loop rest 1 none [] := by
      show extract_loop (p :: rest) 0 none [] = extract_loop rest 1 none []
      exact extract_loop_page0 p rest none []
    have hfirst : first_content_ops (p :: rest) = rest.findSome? id := rfl
    rw [hdef, hfirst]
    exact extract_loop_unresolved rest 1 [] one_ne_zero

/-- Claim C3 witness: the amended behavior at a concrete document with no
content page. -/
theorem boundary_resolution_first_content_page_witness :
    extract_table_from_file [none, none] = .ok [] :=
  (boundary_resolution_first_content_page [none, none]).1 rfl

/-- Dropping a prefix satisfying `p` twice is the same as once. -/
theorem dropWhile_idem (p : Char → Bool) (l : Str) :
    (l.dropWhile p).dropWhile p = l.dropWhile p := by
  induction l with
  | nil => rfl
  | cons a t ih =>
    by_cases h : p a
    · simp [List.dropWhile_cons, h, ih]
    · simp [List.dropWhile_cons, h]

/-- Every string is its right-trim followed by some (whitespace) tail. -/
theorem trimRight_decomp (x : Str) : ∃ w, x = trimRight x ++ w := by
  refine ⟨(x.reverse.takeWhile Char.isWhitespace).reverse, ?_⟩
  rw [trimRight, ← List.reverse_append,
    List.takeWhile_append_dropWhile Char.isWhitespace x.reverse, List.reverse_reverse]

/-- Left-trimming distributes over append when the left part keeps a
non-whitespace character. -/
theorem trimLeft_append {s : Str} (h : trimLeft s ≠ []) (u : Str) :
    trimLeft (s ++ u) = trimLeft s ++ u := by
  rw [trimLeft, List.dropWhile_append]
  rw [if_neg (show ¬(List.dropWhile Char.isWhitespace s).isEmpty = true from
    fun he => h (List.isEmpty_iff.mp he))]
  rfl

/-- Right-trimming an append keeps the left part intact whenever the
right part right-trims to something non-empty. -/
theorem trimRight_append (x u : Str) :
    trimRight (x ++ u) =
      if (trimRight u).isEmpty then trimRight x else x ++ trimRight u := by
  by_cases hu : (u.reverse.dropWhile Char.isWhitespace).isEmpty
  · rw [trimRight, List.reverse_append, List.dropWhile_append, if_pos hu]
    have hu' : (trimRight u).isEmpty := by
      rw [trimRight]
      simpa [List.isEmpty_iff] using hu
    rw [if_pos hu']
    rfl
  · rw [trimRight, List.reverse_append, List.dropWhile_append, if_neg hu]
    have hu' : ¬(trimRight u).isEmpty := by
      rw [trimRight]
      simpa [List.isEmpty_iff] using hu
    rw [if_neg hu', List.reverse_append, List.reverse_reverse]
    rfl

/-- Appending anything to a string with non-empty trim only extends the
trimmed string on the right. -/
theorem trim_append_exists {s : Str} (h : trim s ≠ []) (u : Str) :
    ∃ z, trim (s ++ u) = trim s ++ z := by
  have hL : trimLeft s ≠ [] := by
    intro he
    rw [trim, he] at h
    exact h rfl
  rw [trim, trimLeft_append hL u, trimRight_append]
  by_cases hu : (trimRight u).isEmpty
  · rw [if_pos hu]
    exact ⟨[], by rw [List.append_nil]; rfl⟩
  · rw [if_neg hu]
    obtain ⟨w, hw⟩ := trimRight_decomp (trimLeft s)
    refine ⟨w ++ trimRight u, ?_⟩
    show trimLeft s ++ trimRight u = trimRight (trimLeft s) ++ (w ++ trimRight u)
    conv_lhs => rw [hw]
    rw [List.append_assoc]

/-- Splitting never yields the empty list of parts. -/
theorem splitOnChar_ne_nil (c : Char) (l : Str) : splitOnChar c l ≠ [] := by
  cases l with
  | nil => simp [splitOnChar]
  | cons a rest =>
    by_cases h : a = c
    · simp [splitOnChar, h]
    · rw [splitOnChar, if_neg h]
      cases splitOnChar c rest <;> simp

/-- Splitting a cons headed by a non-separator extends the first part. -/
theorem splitOnChar_cons_ne {ch c : Char} (h : ch ≠ c) (l : Str) :
    splitOnChar c (ch :: l) =
      (ch :: (splitOnChar c l).headD []) :: (splitOnChar c l).tail := by
  cases hs : splitOnChar c l with
  | nil => exact absurd hs (splitOnChar_ne_nil c l)
  | cons p ps => rw [splitOnChar, if_neg h, hs]; rfl

/-- The default of `getLastD` is irrelevant on a non-empty list. -/
theorem getLastD_of_ne_nil {α : Type} {l : List α} (h : l ≠ []) (d₁ d₂ : α) :
    l.getLastD d₁ = l.getLastD d₂ := by
  cases l with
  | nil => exact absurd rfl h
  | cons a t => rw [List.getLastD_cons, List.getLastD_cons]

/-- How `splitOnChar` acts on an append: all parts of the left operand
except its last, then the last left part glued to the first right part,
then the remaining right parts. -/
theorem splitOnChar_append (c : Char) (a b : Str) :
    splitOnChar c (a ++ b) =
      (splitOnChar c a).dropLast ++
        ((splitOnChar c a).getLastD [] ++ (splitOnChar c b).headD []) ::
          (splitOnChar c b).tail := by
  induction a with
  | nil =>
    cases hsb : splitOnChar c b with
    | nil => exact absurd hsb (splitOnChar_ne_nil c b)
    | cons p ps => simp [splitOnChar, hsb]
  | cons ch a' ih =>
    by_cases hch : ch = c
    · subst hch
      rw [show (ch :: a') ++ b = ch :: (a' ++ b) from rfl]
      rw [show splitOnChar ch (ch :: (a' ++ b)) = [] :: splitOnChar ch (a' ++ b) from by
        rw [splitOnChar, if_pos rfl]]
      rw [show splitOnChar ch (ch :: a') = [] :: splitOnChar ch a' from by
        rw [splitOnChar, if_pos rfl]]
      cases hsa : splitOnChar ch a' with
      | nil => exact absurd hsa (splitOnChar_ne_nil ch a')
      | cons p ps =>
        rw [List.dropLast_cons_of_ne_nil (by simp), List.getLastD_cons]
        rw [ih, hsa, getLastD_of_ne_nil (by simp) [] p]
        rfl
    · rw [show (ch :: a') ++ b = ch :: (a' ++ b) from rfl, splitOnChar_cons_ne hch,
        splitOnChar_cons_ne hch, ih]
      cases hsa : splitOnChar c a' with
      | nil => exact absurd hsa (splitOnChar_ne_nil c a')
      | cons p ps =>
        cases ps with
        | nil => simp
        | cons q qs =>
          simp only [List.headD_cons, List.tail_cons, List.dropLast_cons₂,
            List.getLastD_cons, List.cons_append]

/-- Right-trimming is idempotent. -/
theorem trimRight_idem (x : Str) : trimRight (trimRight x) = trimRight x := by
  rw [trimRight, trimRight, List.reverse_reverse, dropWhile_idem]

/-- The head surviving a `dropWhile` does not satisfy the predicate. -/
theorem dropWhile_head_not (p : Char → Bool) (l : Str) :
    ∀ a t, l.dropWhile p = a :: t → p a = false := by
  induction l with
  | nil => intro a t h; cases h
  | cons b l' ih =>
    intro a t h
    by_cases hb : p b
    · rw [List.dropWhile_cons, if_pos hb] at h
      exact ih a t h
    · rw [List.dropWhile_cons, if_neg hb] at h
      obtain rfl : b = a := (List.cons.injEq _ _ _ _ ▸ h).1
      simpa using hb

/-- Left-trimming after right-trimming an already left-trimmed string
changes nothing. -/
theorem trimLeft_trimRight_trimLeft (s : Str) :
    trimLeft (trimRight (trimLeft s)) = trimRight (trimLeft s) := by
  cases h : trimRight (trimLeft s) with
  | nil => rfl
  | cons a t =>
    obtain ⟨w, hw⟩ := trimRight_decomp (trimLeft s)
    rw [h] at hw
    have ha : Char.isWhitespace a = false := by
      refine dropWhile_head_not Char.isWhitespace s a (t ++ w) ?_
      rw [show List.dropWhile Char.isWhitespace s = trimLeft s from rfl, hw]
      rfl
    rw [trimLeft, List.dropWhile_cons, if_neg (by simp [ha])]

/-- Trimming is idempotent. -/
theorem trim_idem (s : Str) : trim (trim s) = trim s := by
  show trimRight (trimLeft (trimRight (trimLeft s))) = trimRight (trimLeft s)
  rw [trimLeft_trimRight_trimLeft, trimRight_idem]

/-- Unfolding equation of `is_data_row` on a non-empty row. -/
theorem is_data_row_cons_eq (c₀ : Str) (rest : List Str) :
    is_data_row (c₀ :: rest) =
      if c₀.isEmpty then false
      else if 10 ≤ (trim c₀).length then
        match splitOnChar '-' (trim c₀) with
        | p₀ :: p₁ :: p₂ :: _ =>
          p₀.length = 4 && p₀.all Char.isDigit && p₁.length = 2 && 2 ≤ p₂.length
        | _ => false
      else false := rfl

/-- `is_data_row` only inspects the first column. -/
theorem is_data_row_head_only (c₀ : Str) (r r' : List Str) :
    is_data_row (c₀ :: r) = is_data_row (c₀ :: r') := rfl

/-- Structural characterization of `is_data_row` on a non-empty row. -/
theorem is_data_row_cons_iff (c₀ : Str) (rest : List Str) :
    is_data_row (c₀ :: rest) = true ↔
      (10 ≤ (trim c₀).length ∧ ∃ p₀ p₁ p₂ ps,
        splitOnChar '-' (trim c₀) = p₀ :: p₁ :: p₂ :: ps ∧
        p₀.length = 4 ∧ p₀.all Char.isDigit = true ∧ p₁.length = 2 ∧ 2 ≤ p₂.length) := by
  have hmatch : ∀ parts : List Str,
      ((match parts with
        | p₀ :: p₁ :: p₂ :: _ =>
          p₀.length = 4 && p₀.all Char.isDigit && p₁.length = 2 && 2 ≤ p₂.length
        | _ => (false : Bool)) = true) ↔
        (∃ p₀ p₁ p₂ ps, parts = p₀ :: p₁ :: p₂ :: ps ∧
          p₀.length = 4 ∧ p₀.all Char.isDigit = true ∧ p₁.length = 2 ∧ 2 ≤ p₂.length) := by
    intro parts
    match parts with
    | [] => simp
    | [p₀] => simp
    | [p₀, p₁] => simp
    | p₀ :: p₁ :: p₂ :: ps =>
      simp only [Bool.and_eq_true, decide_eq_true_eq, List.cons.injEq]
      constructor
      · rintro ⟨⟨⟨h4, hdig⟩, h2⟩, h2'⟩
        exact ⟨p₀, p₁, p₂, ps, ⟨rfl, rfl, rfl, rfl⟩, h4, hdig, h2, h2'⟩
      · rintro ⟨a, b, c, d, ⟨rfl, rfl, rfl, rfl⟩, h4, hdig, h2, h2'⟩
        exact ⟨⟨⟨h4, hdig⟩, h2⟩, h2'⟩
  by_cases hc : c₀.isEmpty
  · have hc' : c₀ = [] := List.isEmpty_iff.mp hc
    subst hc'
    rw [is_data_row_cons_eq, if_pos (show ([] : Str).isEmpty = true from rfl),
      show trim ([] : Str) = [] from rfl]
    simp
  · by_cases h10 : 10 ≤ (trim c₀).length
    · rw [is_data_row_cons_eq, if_neg hc, if_pos h10, hmatch]
      simp [h10]
    · rw [is_data_row_cons_eq, if_neg hc, if_neg h10]
      simp [h10]

/-- Appending anything to the first column of a data row keeps it a data
row: the date shape lives in a prefix the append cannot disturb. -/
theorem is_data_row_append_first {c₀ : Str} {rest rest' : List Str} (u : Str)
    (h : is_data_row (c₀ :: rest) = true) : is_data_row ((c₀ ++ u) :: rest') = true := by
  obtain ⟨h10, p₀, p₁, p₂, ps, hsp, h4, hdig, h2, h2'⟩ := (is_data_row_cons_iff c₀ rest).mp h
  have htne : trim c₀ ≠ [] := by
    intro he
    rw [he] at h10
    simp at h10
  obtain ⟨z, hz⟩ := trim_append_exists htne u
  rw [is_data_row_cons_iff]
  refine ⟨by rw [hz, List.length_append]; omega, ?_⟩
  rw [hz, splitOnChar_append, hsp]
  cases ps with
  | nil =>
    refine ⟨p₀, p₁, p₂ ++ (splitOnChar '-' z).headD [], (splitOnChar '-' z).tail,
      ?_, h4, hdig, h2, by rw [List.length_append]; omega⟩
    simp only [List.dropLast_cons₂, List.dropLast_single, List.getLastD_cons,
      List.getLastD_nil, List.cons_append, List.nil_append]
  | cons q qs =>
    refine ⟨p₀, p₁, p₂,
      (q :: qs).dropLast ++
        (qs.getLastD q ++ (splitOnChar '-' z).headD []) :: (splitOnChar '-' z).tail,
      ?_, h4, hdig, h2, h2'⟩
    simp only [List.dropLast_cons₂, List.getLastD_cons, List.cons_append]

/-- Trimming every column of a data row keeps it a data row. -/
theorem is_data_row_map_trim {cells : List Str} (h : is_data_row cells = true) :
    is_data_row (cells.map trim) = true := by
  cases cells with
  | nil => simp [is_data_row] at h
  | cons c₀ rest =>
    obtain ⟨h10, p₀, p₁, p₂, ps, hsp, h4, hdig, h2, h2'⟩ :=
      (is_data_row_cons_iff c₀ rest).mp h
    rw [List.map_cons, is_data_row_cons_iff, trim_idem]
    exact ⟨h10, p₀, p₁, p₂, ps, hsp, h4, hdig, h2, h2'⟩

/-- Merging a continuation row into a data row keeps it a data row. -/
theorem is_data_row_merge {r cont : List Str} (h : is_data_row r = true) :
    is_data_row (merge_continuation_row r cont) = true := by
  cases r with
  | nil => simp [is_data_row] at h
  | cons r₀ rs =>
    cases cont with
    | nil => exact h
    | cons c cs =>
      have hr₀ : r₀.isEmpty = false := by
        by_cases hr : r₀.isEmpty
        · rw [is_data_row_cons_eq, if_pos hr] at h
          exact absurd h (by simp)
        · simpa using hr
      rw [show merge_continuation_row (r₀ :: rs) (c :: cs) =
        (if c.isEmpty then r₀ else if r₀.isEmpty then c else r₀ ++ ' ' :: c) ::
          merge_continuation_row rs cs from rfl]
      by_cases hc : c.isEmpty
      · rw [if_pos hc, is_data_row_head_only r₀ (merge_continuation_row rs cs) rs]
        exact h
      · rw [if_neg hc, if_neg (show ¬r₀.isEmpty = true by simp [hr₀])]
        exact is_data_row_append_first (' ' :: c) h

/-- Shape invariant of the record-reconstruction loop: every record it
ever holds or emits passes the data-row check on its first column. -/
theorem record_loop_all_data {b : List ℚ} :
    ∀ (rows : List TableRow) (cur : Option (List Str)) (recs : List (List Str)),
      (∀ r ∈ recs, is_data_row r = true) → (∀ r, cur = some r → is_data_row r = true) →
      ∀ r ∈ record_loop b rows cur recs, is_data_row r = true := by
  intro rows
  induction rows with
  | nil =>
    intro cur recs hrecs hcur r hr
    rw [record_loop_nil] at hr
    rcases List.mem_append.mp hr with h | h
    · exact hrecs r h
    · cases cur with
      | none => cases h
      | some c =>
        obtain rfl : r = c := by simpa using h
        exact hcur r rfl
  | cons row rest ih =>
    intro cur recs hrecs hcur r hr
    rw [record_loop_cons] at hr
    by_cases hemp : (assign_cells_to_columns row b).all List.isEmpty
    · rw [if_pos hemp] at hr
      exact ih cur recs hrecs hcur r hr
    · rw [if_neg hemp] at hr
      by_cases hhdr : is_header_row (assign_cells_to_columns row b)
      · rw [if_pos hhdr] at hr
        exact ih cur recs hrecs hcur r hr
      · rw [if_neg hhdr] at hr
        by_cases hdata : is_data_row (assign_cells_to_columns row b)
        · rw [if_pos hdata] at hr
          refine ih _ _ ?_ ?_ r hr
          · intro q hq
            rcases List.mem_append.mp hq with h | h
            · exact hrecs q h
            · cases cur with
              | none => cases h
              | some c =>
                obtain rfl : q = c := by simpa using h
                exact hcur q rfl
          · intro q hq
            obtain rfl : q = (assign_cells_to_columns row b).map trim := by
              simpa using hq.symm
            exact is_data_row_map_trim hdata
        · rw [if_neg hdata] at hr
          cases cur with
          | none => exact ih none recs hrecs (by intro q hq; cases hq) r hr
          | some c =>
            refine ih _ recs hrecs ?_ r hr
            intro q hq
            obtain rfl : q = merge_continuation_row c (assign_cells_to_columns row b) := by
              simpa using hq.symm
            exact is_data_row_merge (hcur c rfl)

/-- Shape invariant lifted to a whole page. -/
theorem process_page_rows_all_data (ops : List Op) (b : List ℚ) :
    ∀ r ∈ process_page_rows ops b, is_data_row r = true := by
  intro r hr
  unfold process_page_rows at hr
  by_cases helem : (extract_text_from_ops ops).isEmpty
  · rw [if_pos helem] at hr; cases hr
  · rw [if_neg helem] at hr
    by_cases hrows : (group_into_rows (extract_text_from_ops ops) Y_TOLERANCE).isEmpty
    · rw [if_pos hrows] at hr; cases hr
    · rw [if_neg hrows] at hr
      exact record_loop_all_data _ none [] (by intro q hq; cases hq)
        (by intro q hq; cases hq) r hr

/-- Shape invariant of the page loop. -/
theorem extract_loop_all_data :
    ∀ (pages : List (Option (List Op))) (num : ℕ) (bnd : Option (List ℚ))
      (acc records : List (List Str)),
      (∀ r ∈ acc, is_data_row r = true) →
      extract_loop pages num bnd acc = .ok records → ∀ r ∈ records, is_data_row r = true := by
  intro pages
  induction pages with
  | nil =>
    intro num bnd acc records hacc h
    obtain rfl : acc = records := by simpa [extract_loop] using h
    exact hacc
  | cons page rest ih =>
    intro num bnd acc records hacc h
    by_cases hnum : num = 0
    · subst hnum
      rw [extract_loop_page0] at h
      exact ih _ _ _ _ hacc h
    · cases page with
      | none =>
        rw [extract_loop_none_page hnum] at h
        exact ih _ _ _ _ hacc h
      | some ops =>
        cases bnd with
        | some b =>
          rw [extract_loop_resolved hnum] at h
          refine ih _ _ _ _ ?_ h
          intro r hr
          rcases List.mem_append.mp hr with hm | hm
          · exact hacc r hm
          · exact process_page_rows_all_data ops b r hm
        | none =>
          by_cases hdet : REQUIRED_BOUNDARIES ≤ (extract_column_boundaries_from_ops ops).length
          · rw [extract_loop_detect_ok hnum hdet] at h
            refine ih _ _ _ _ ?_ h
            intro r hr
            rcases List.mem_append.mp hr with hm | hm
            · exact hacc r hm
            · exact process_page_rows_all_data ops _ r hm
          · rw [extract_loop_detect_fail hnum hdet] at h
            cases h

unseal Rat.mul Rat.add Rat.sub Rat.inv in
/-- Claim C4 counterexample: a document on which extraction succeeds and
emits a record whose first column `"0000-ab-cd"` passes the code's
syntactic date-shape check but is not a calendar date `YYYY-MM-DD`, and
whose non-empty second column `"nope"` is not a date either. -/
theorem record_date_pattern_counterexample :
    extract_table_from_file c4pages = Except.ok [c4record]
    ∧ c4record.getD 0 [] = "0000-ab-cd".toList
    ∧ matches_yyyy_mm_dd "0000-ab-cd".toList = false
    ∧ c4record.getD 1 [] = "nope".toList
    ∧ matches_yyyy_mm_dd "nope".toList = false :=
  ⟨by rfl, by rfl, by rfl, by rfl, by rfl⟩

/-- Claim C4 amended: every record emitted by a successful extraction
satisfies the syntactic data-row shape check on its first column (at
least 10 characters when trimmed, at least 3 dash-separated parts,
4-ASCII-digit first part, 2-character second part, ≥ 2-character third
part) — not necessarily the strict `YYYY-MM-DD` calendar pattern, and
with no constraint at all on the second column; in particular no record
is emitted with zero columns, and header rows cause no state transition,
so they are never materialized as records. -/
theorem emitted_records_shape :
    (∀ pages records, extract_table_from_file pages = .ok records →
        ∀ r ∈ records, is_data_row r = true ∧ r ≠ [])
    ∧ (∀ (b : List ℚ) (row : TableRow) (rest : List TableRow) (cur : Option (List Str))
        (recs : List (List Str)),
        is_header_row (assign_cells_to_columns row b) = true →
        record_loop b (row :: rest) cur recs = record_loop b rest cur recs) := by
  constructor
  · intro pages records h r hr
    have hd : is_data_row r = true :=
      extract_loop_all_data pages 0 none [] records (by intro q hq; cases hq) h r hr
    refine ⟨hd, ?_⟩
    intro he
    subst he
    simp [is_data_row] at hd
  · intro b row rest cur recs hhdr
    exact record_loop_skip (Or.inr hhdr) rest cur recs

unseal Rat.mul Rat.add Rat.sub Rat.inv in
/-- Claim C4 witness: the amended invariant at a concrete document. -/
theorem emitted_records_shape_witness :
    is_data_row c4record = true ∧ c4record ≠ [] :=
  emitted_records_shape.1 c4pages [c4record] (by rfl) c4record
    (List.mem_singleton.mpr rfl)

unseal Rat.mul Rat.add Rat.sub Rat.inv in
/-- Claim C1 counterexample: a two-page document whose record is still
open after the last row of page 1 and whose page 2 starts with a
continuation row carrying `"wrapped"`.  The claim says the record is not
emitted at page 1's end and the continuation is merged into it; the code
emits the record at page 1's end (already from page 1 alone) and drops
the page-2 continuation: `"wrapped"` appears in no field of the unique
emitted record. -/
theorem record_state_cross_page_counterexample :
    extract_table_from_file c1pages = Except.ok [c1record]
    ∧ process_page_rows c1page1
        ((extract_column_boundaries_from_ops c1page1).take REQUIRED_BOUNDARIES) = [c1record]
    ∧ "wrapped".toList ∉ c1record :=
  ⟨by rfl, by rfl, by decide⟩

/-- Claim C1 amended: record-reconstruction state does not persist across
page boundaries — it is reset for every page.  A record still open after
the last row of a page is emitted at that page's end; a continuation row
arriving while no record is open (as at the start of a page) is
discarded, not merged; and once boundaries are resolved a document's
records are exactly the concatenation of the per-page results, each page
starting with no open record. -/
theorem record_state_reset_per_page :
    (∀ (b : List ℚ) (r : List Str) (recs : List (List Str)),
        record_loop b [] (some r) recs = recs ++ [r])
    ∧ (∀ (b : List ℚ) (row : TableRow) (rest : List TableRow) (recs : List (List Str)),
        (assign_cells_to_columns row b).all List.isEmpty = false →
        is_header_row (assign_cells_to_columns row b) = false →
        is_data_row (assign_cells_to_columns row b) = false →
        record_loop b (row :: rest) none recs = record_loop b rest none recs)
    ∧ (∀ (ops_list : List (List Op)) (b : List ℚ) (num : ℕ) (acc : List (List Str)),
        num ≠ 0 →
        extract_loop (ops_list.map some) num (some b) acc =
          .ok (acc ++ (ops_list.map fun ops => process_page_rows ops b).flatten)) := by
  refine ⟨fun b r recs => rfl, ?_, ?_⟩
  · intro b row rest recs hemp hhdr hdata
    exact record_loop_discard hemp hhdr hdata rest recs
  · intro ops_list
    induction ops_list with
    | nil =>
      intro b num acc _
      rw [show extract_loop (List.map some []) num (some b) acc = .ok acc from rfl]
      simp
    | cons ops rest ih =>
      intro b num acc hnum
      rw [List.map_cons, extract_loop_resolved hnum,
        ih b (num + 1) _ (Nat.succ_ne_zero num)]
      simp [List.append_assoc]

unseal Rat.mul Rat.add Rat.sub Rat.inv in
/-- Claim C1 witness: the amended per-page behavior at concrete inputs. -/
theorem record_state_reset_per_page_witness :
    record_loop [0, F32_MAX] [] (some ["x".toList]) [] = [["x".toList]]
    ∧ record_loop [0, F32_MAX] [TableRow.mk 0 [(0, "hello".toList)]] none [] =
        record_loop [0, F32_MAX] [] none []
    ∧ extract_loop [some []] 1 (some [0, F32_MAX]) [] = .ok [] := by
  refine ⟨record_state_reset_per_page.1 [0, F32_MAX] ["x".toList] [], ?_, ?_⟩
  · exact record_state_reset_per_page.2.1 [0, F32_MAX] (TableRow.mk 0 [(0, "hello".toList)])
      [] [] (by decide) (by decide) (by decide)
  · have h := record_state_reset_per_page.2.2 [[]] [0, F32_MAX] 1 [] one_ne_zero
    rw [show ([[]] : List (List Op)).map some = [some []] from rfl] at h
    rw [h]
    rfl

unseal Rat.mul Rat.add Rat.sub Rat.inv in
/-- Claim C2, evaluated at the failing input: on a page with eleven
distinct vertical separator lines (x = 0, 3, …, 30) the detector returns
the eleven lines plus the sentinel (12 thresholds ≥ 11, so extraction
succeeds), but the truncation to 11 keeps the eleven finite lines and
drops the `f32::MAX` sentinel appended before it: the boundaries applied
to the page end at 30, not at an unbounded threshold, and the trailing
cell `"TRAILING"` at x = 100 is silently lost instead of being caught by
the last column. -/
theorem boundary_sentinel_truncated :
    (extract_column_boundaries_from_ops c2page).length = 12
    ∧ ((extract_column_boundaries_from_ops c2page).take REQUIRED_BOUNDARIES).getLast?
        = some 30
    ∧ (30 : ℚ) ≠ F32_MAX
    ∧ extract_table_from_file c2pages = Except.ok [c2record]
    ∧ "TRAILING".toList ∉ c2record :=
  ⟨by rfl, by rfl, by decide, by rfl, by decide⟩

/-- Lookup of an absent key gives the empty bucket. -/
theorem lookupA_eq_nil_of_not_mem {m : List (ℤ × List (ℚ × Str))} {k : ℤ}
    (h : k ∉ m.map Prod.fst) : lookupA m k = [] := by
  induction m with
  | nil => rfl
  | cons kv rest ih =>
    obtain ⟨k₁, vs⟩ := kv
    rw [lookupA, if_neg (by simp at h; exact fun he => h.1 he)]
    exact ih (by simp at h ⊢; exact h.2)

/-- Key membership after an `insertAssoc`. -/
theorem insertAssoc_keys_mem (k : ℤ) (v : ℚ × Str) (m : List (ℤ × List (ℚ × Str))) (k' : ℤ) :
    k' ∈ (insertAssoc k v m).map Prod.fst ↔ k' = k ∨ k' ∈ m.map Prod.fst := by
  induction m with
  | nil => simp [insertAssoc]
  | cons kv rest ih =>
    obtain ⟨k₁, vs⟩ := kv
    by_cases h1 : k = k₁
    · subst h1
      rw [insertAssoc, if_pos rfl]
      simp
    · by_cases h2 : k < k₁
      · rw [insertAssoc, if_neg h1, if_pos h2]
        simp
      · rw [insertAssoc, if_neg h1, if_neg h2]
        simp [ih]
        tauto

/-- `insertAssoc` keeps the keys strictly sorted. -/
theorem insertAssoc_pairwise {m : List (ℤ × List (ℚ × Str))}
    (hm : (m.map Prod.fst).Pairwise (· < ·)) (k : ℤ) (v : ℚ × Str) :
    ((insertAssoc k v m).map Prod.fst).Pairwise (· < ·) := by
  induction m with
  | nil => simp [insertAssoc]
  | cons kv rest ih =>
    obtain ⟨k₁, vs⟩ := kv
    rw [List.map_cons, List.pairwise_cons] at hm
    by_cases h1 : k = k₁
    · subst h1
      rw [insertAssoc, if_pos rfl]
      rw [List.map_cons, List.pairwise_cons]
      exact hm
    · by_cases h2 : k < k₁
      · rw [insertAssoc, if_neg h1, if_pos h2]
        rw [List.map_cons, List.pairwise_cons]
        refine ⟨?_, List.pairwise_cons.mpr hm⟩
        intro b hb
        rw [List.map_cons] at hb
        rcases List.mem_cons.mp hb with rfl | hb
        · exact h2
        · exact lt_trans h2 (hm.1 b hb)
      · rw [insertAssoc, if_neg h1, if_neg h2]
        rw [List.map_cons, List.pairwise_cons]
        refine ⟨?_, ih hm.2⟩
        intro b hb
        rcases (insertAssoc_keys_mem k v rest b).mp hb with rfl | hb
        · omega
        · exact hm.1 b hb

/-- Lookup through `insertAssoc` on a strictly sorted map: the inserted
key's bucket gains `v` at its end, every other bucket is untouched. -/
theorem lookupA_insertAssoc {m : List (ℤ × List (ℚ × Str))}
    (hm : (m.map Prod.fst).Pairwise (· < ·)) (k : ℤ) (v : ℚ × Str) (k' : ℤ) :
    lookupA (insertAssoc k v m) k' =
      if k' = k then lookupA m k ++ [v] else lookupA m k' := by
  induction m with
  | nil =>
    by_cases h : k' = k <;> simp [insertAssoc, lookupA, h]
  | cons kv rest ih =>
    obtain ⟨k₁, vs⟩ := kv
    rw [List.map_cons, List.pairwise_cons] at hm
    by_cases h1 : k = k₁
    · subst h1
      rw [insertAssoc, if_pos rfl]
      by_cases h : k' = k
      · subst h
        rw [lookupA, if_pos rfl, if_pos rfl, lookupA, if_pos rfl]
      · rw [lookupA, if_neg h, if_neg h, lookupA, if_neg h]
    · by_cases h2 : k < k₁
      · have hknotin : k ∉ ((k₁, vs) :: rest).map Prod.fst := by
          rw [List.map_cons]
          intro hmem
          rcases List.mem_cons.mp hmem with rfl | hmem
          · exact h1 rfl
          · exact absurd (hm.1 k hmem) (by omega)
        rw [insertAssoc, if_neg h1, if_pos h2]
        by_cases h : k' = k
        · subst h
          rw [lookupA, if_pos rfl, if_pos rfl, lookupA_eq_nil_of_not_mem hknotin]
          rfl
        · rw [lookupA, if_neg h, if_neg h]
      · rw [insertAssoc, if_neg h1, if_neg h2]
        simp only [lookupA]
        rw [ih hm.2]
        by_cases h : k' = k₁
        · have h1' : ¬k₁ = k := fun he => h1 he.symm
          simp [h, h1']
        · by_cases h' : k' = k
          · simp [h, h', h1]
          · simp [h, h']

/-- The `BTreeMap`-building fold keeps the keys strictly sorted. -/
theorem foldl_insert_pairwise (tol : ℚ) :
    ∀ (es : List TextElement) (m : List (ℤ × List (ℚ × Str))),
      (m.map Prod.fst).Pairwise (· < ·) →
      (((es.foldl (fun m e => insertAssoc (y_key tol e.y) (e.x, e.text) m) m)).map
        Prod.fst).Pairwise (· < ·) := by
  intro es
  induction es with
  | nil => intro m hm; exact hm
  | cons e es ih =>
    intro m hm
    rw [List.foldl_cons]
    exact ih _ (insertAssoc_pairwise hm _ _)

/-- Each bucket of the fold result is the initial bucket followed by the
matching fragments in input order. -/
theorem foldl_insert_lookup (tol : ℚ) :
    ∀ (es : List TextElement) (m : List (ℤ × List (ℚ × Str))),
      ((m.map Prod.fst).Pairwise (· < ·)) → ∀ k,
      lookupA (es.foldl (fun m e => insertAssoc (y_key tol e.y) (e.x, e.text) m) m) k =
        lookupA m k ++ ((es.filter fun e => y_key tol e.y = k).map fun e => (e.x, e.text)) := by
  intro es
  induction es with
  | nil => intro m _ k; simp
  | cons e es ih =>
    intro m hm k
    rw [List.foldl_cons, ih _ (insertAssoc_pairwise hm _ _) k,
      lookupA_insertAssoc hm _ _ k, List.filter_cons]
    by_cases hk : y_key tol e.y = k
    · rw [if_pos hk.symm, if_pos (show decide (y_key tol e.y = k) = true by simp [hk])]
      simp [hk, List.append_assoc]
    · rw [if_neg (fun he => hk he.symm),
        if_neg (show ¬decide (y_key tol e.y = k) = true by simp [hk])]

/-- Key membership in the fold result: the initial keys plus every
quantized bucket of the processed fragments. -/
theorem foldl_insert_keys_mem (tol : ℚ) :
    ∀ (es : List TextElement) (m : List (ℤ × List (ℚ × Str))) (k : ℤ),
      (k ∈ (es.foldl (fun m e => insertAssoc (y_key tol e.y) (e.x, e.text) m) m).map
        Prod.fst) ↔ (k ∈ m.map Prod.fst ∨ k ∈ es.map fun e => y_key tol e.y) := by
  intro es
  induction es with
  | nil => intro m k; simp
  | cons e es ih =>
    intro m k
    rw [List.foldl_cons, ih, insertAssoc_keys_mem, List.map_cons, List.mem_cons]
    tauto

/-- Two strictly-key-sorted association lists with the same lookups and
the same key sets are equal. -/
theorem assocExt :
    ∀ (m₁ m₂ : List (ℤ × List (ℚ × Str))),
      (m₁.map Prod.fst).Pairwise (· < ·) → (m₂.map Prod.fst).Pairwise (· < ·) →
      (∀ k, lookupA m₁ k = lookupA m₂ k) →
      (∀ k, k ∈ m₁.map Prod.fst ↔ k ∈ m₂.map Prod.fst) → m₁ = m₂ := by
  intro m₁
  induction m₁ with
  | nil =>
    intro m₂ _ _ _ hmem
    cases m₂ with
    | nil => rfl
    | cons kv t =>
      exact absurd ((hmem kv.1).mpr (by simp)) (by simp)
  | cons kv₁ t₁ ih =>
    intro m₂ h₁ h₂ hlook hmem
    obtain ⟨k₁, v₁⟩ := kv₁
    cases m₂ with
    | nil => exact absurd ((hmem k₁).mp (by simp)) (by simp)
    | cons kv₂ t₂ =>
      obtain ⟨k₂, v₂⟩ := kv₂
      rw [List.map_cons, List.pairwise_cons] at h₁ h₂
      have hk : k₁ = k₂ := by
        rcases lt_trichotomy k₁ k₂ with hlt | heq | hgt
        · have h1m : k₁ ∈ (k₂, v₂).1 :: t₂.map Prod.fst := by
            have := (hmem k₁).mp (by simp)
            simpa using this
          rcases List.mem_cons.mp h1m with he | hmem'
          · omega
          · exact absurd (h₂.1 k₁ hmem') (by omega)
        · exact heq
        · have h2m : k₂ ∈ (k₁, v₁).1 :: t₁.map Prod.fst := by
            have := (hmem k₂).mpr (by simp)
            simpa using this
          rcases List.mem_cons.mp h2m with he | hmem'
          · omega
          · exact absurd (h₁.1 k₂ hmem') (by omega)
      subst hk
      have hv : v₁ = v₂ := by
        have := hlook k₁
        rwa [lookupA, if_pos rfl, lookupA, if_pos rfl] at this
      subst hv
      have hnotin₁ : k₁ ∉ t₁.map Prod.fst := fun hmem' =>
        absurd (h₁.1 k₁ hmem') (by omega)
      have hnotin₂ : k₁ ∉ t₂.map Prod.fst := fun hmem' =>
        absurd (h₂.1 k₁ hmem') (by omega)
      have hteq : t₁ = t₂ := by
        refine ih t₂ h₁.2 h₂.2 ?_ ?_
        · intro k
          by_cases hkk : k = k₁
          · subst hkk
            rw [lookupA_eq_nil_of_not_mem hnotin₁, lookupA_eq_nil_of_not_mem hnotin₂]
          · have := hlook k
            rwa [lookupA, if_neg hkk, lookupA, if_neg hkk] at this
        · intro k
          by_cases hkk : k = k₁
          · subst hkk
            simp [hnotin₁, hnotin₂]
          · have := hmem k
            rw [List.map_cons, List.mem_cons, List.map_cons, List.mem_cons] at this
            simpa [hkk] using this
      rw [hteq]

/-- Membership is preserved by consecutive dedup. -/
theorem mem_dedupConsec (l : List ℤ) (k : ℤ) : k ∈ dedupConsec l ↔ k ∈ l := by
  induction l with
  | nil => simp [dedupConsec]
  | cons a rest ih =>
    cases rest with
    | nil => simp [dedupConsec]
    | cons b rest' =>
      by_cases hab : a = b
      · subst hab
        rw [dedupConsec, if_pos rfl]
        rw [ih]
        simp
      · rw [dedupConsec, if_neg hab]
        simp [ih]

/-- Consecutive dedup of a `≤`-sorted list is strictly sorted. -/
theorem dedupConsec_pairwise :
    ∀ {l : List ℤ}, l.Pairwise (· ≤ ·) → (dedupConsec l).Pairwise (· < ·) := by
  intro l
  induction l with
  | nil => intro _; simp [dedupConsec]
  | cons a rest ih =>
    intro h
    rw [List.pairwise_cons] at h
    cases rest with
    | nil => simp [dedupConsec]
    | cons b rest' =>
      by_cases hab : a = b
      · subst hab
        rw [dedupConsec, if_pos rfl]
        exact ih h.2
      · rw [dedupConsec, if_neg hab]
        rw [List.pairwise_cons]
        refine ⟨?_, ih h.2⟩
        intro c hc
        rw [mem_dedupConsec] at hc
        have hab' : a < b := lt_of_le_of_ne (h.1 b (by simp)) hab
        rcases List.mem_cons.mp hc with rfl | hc
        · exact hab'
        · exact lt_of_lt_of_le hab' ((List.pairwise_cons.mp h.2).1 c hc)

/-- Lookup in an association list built by mapping over its key list. -/
theorem lookupA_map_assoc (keys : List ℤ) (f : ℤ → List (ℚ × Str)) (k : ℤ) :
    lookupA (keys.map fun k' => (k', f k')) k = if k ∈ keys then f k else [] := by
  induction keys with
  | nil => simp [lookupA]
  | cons k₁ rest ih =>
    rw [List.map_cons, lookupA]
    by_cases h : k = k₁
    · subst h
      simp
    · rw [if_neg h, ih]
      by_cases hm : k ∈ rest
      · simp [hm, h]
      · simp [hm, h]

/-- The `BTreeMap` built by the fold is exactly the association list of
the distinct sorted buckets, each carrying its fragments in input
order. -/
theorem buildMap_eq_spec (es : List TextElement) (tol : ℚ) :
    es.foldl (fun m e => insertAssoc (y_key tol e.y) (e.x, e.text) m) [] =
      (dedupConsec (List.insertionSort (fun a b : ℤ => a ≤ b)
        (es.map fun e => y_key tol e.y))).map
        (fun k => (k, (es.filter fun e => y_key tol e.y = k).map fun e =>
          (e.x, e.text))) := by
  have hkeyspw : (dedupConsec (List.insertionSort (fun a b : ℤ => a ≤ b)
      (es.map fun e => y_key tol e.y))).Pairwise (· < ·) :=
    dedupConsec_pairwise (List.sorted_insertionSort _ _)
  have hmemkeys : ∀ k, k ∈ dedupConsec (List.insertionSort (fun a b : ℤ => a ≤ b)
      (es.map fun e => y_key tol e.y)) ↔ k ∈ es.map fun e => y_key tol e.y := by
    intro k
    rw [mem_dedupConsec, List.mem_insertionSort]
  apply assocExt
  · exact foldl_insert_pairwise tol es [] (by simp)
  · rw [List.map_map,
      show ((Prod.fst ∘ fun k => (k, (es.filter fun e => y_key tol e.y = k).map fun e =>
        (e.x, e.text))) : ℤ → ℤ) = id from rfl, List.map_id]
    exact hkeyspw
  · intro k
    rw [foldl_insert_lookup tol es [] (by simp) k, lookupA_map_assoc]
    by_cases hk : k ∈ dedupConsec (List.insertionSort (fun a b : ℤ => a ≤ b)
        (es.map fun e => y_key tol e.y))
    · rw [if_pos hk]
      rfl
    · rw [if_neg hk]
      have hfil : es.filter (fun e => y_key tol e.y = k) = [] := by
        rw [List.filter_eq_nil_iff]
        intro e he hq
        exact hk ((hmemkeys k).mpr
          (List.mem_map.mpr ⟨e, he, of_decide_eq_true hq⟩))
      rw [hfil]
      rfl
  · intro k
    rw [foldl_insert_keys_mem tol es [] k, List.map_map]
    rw [show ((Prod.fst ∘ fun k => (k, (es.filter fun e => y_key tol e.y = k).map fun e =>
      (e.x, e.text))) : ℤ → ℤ) = id from rfl, List.map_id]
    rw [hmemkeys k]
    simp

/-- Inserting an element below everything in the list appends it. -/
theorem orderedInsert_eq_append {α : Type} {r : α → α → Prop} [DecidableRel r] (a : α) :
    ∀ l : List α, (∀ b ∈ l, ¬r a b) → List.orderedInsert r a l = l ++ [a] := by
  intro l
  induction l with
  | nil => intro _; rfl
  | cons b t ih =>
    intro h
    rw [List.orderedInsert, if_neg (h b (by simp)), ih (fun c hc => h c (by simp [hc]))]
    rfl

/-- Stably sorting a strictly ascending list by the descending order
reverses it. -/
theorem insertionSort_desc_eq_reverse :
    ∀ l : List TableRow, l.Pairwise (fun a b => a.y < b.y) →
      List.insertionSort (fun a b : TableRow => b.y ≤ a.y) l = l.reverse := by
  intro l
  induction l with
  | nil => intro _; rfl
  | cons a t ih =>
    intro h
    rw [List.pairwise_cons] at h
    rw [List.insertionSort, ih h.2,
      @orderedInsert_eq_append TableRow (fun a b => b.y ≤ a.y) _ a t.reverse
        (fun b hb => not_le.mpr (h.1 b (List.mem_reverse.mp hb))),
      List.reverse_cons]

/-- Claim C8: row grouping quantizes each fragment's y into the bucket
`round(y / tolerance)`, groups fragments sharing a bucket into one row,
sorts cells within a row by ascending x, gives the row the representative
y `bucket * tolerance`, and orders rows by descending representative y
(for the positive tolerance the code uses); the empty fragment list
yields the empty row list. -/
theorem group_into_rows_matches_spec :
    (∀ (elements : List TextElement) (y_tolerance : ℚ), 0 < y_tolerance →
        group_into_rows elements y_tolerance = rows_spec elements y_tolerance)
    ∧ ∀ y_tolerance : ℚ, group_into_rows [] y_tolerance = [] := by
  refine ⟨?_, fun tol => rfl⟩
  intro es tol htol
  by_cases hes : es.isEmpty
  · obtain rfl : es = [] := List.isEmpty_iff.mp hes
    rfl
  · have hdef : group_into_rows es tol =
        List.insertionSort (fun a b : TableRow => b.y ≤ a.y)
          ((es.foldl (fun m e => insertAssoc (y_key tol e.y) (e.x, e.text) m) []).map
            fun kv => TableRow.mk ((kv.1 : ℚ) * tol)
              (List.insertionSort (fun a b : ℚ × Str => a.1 ≤ b.1) kv.2)) := by
      unfold group_into_rows
      rw [if_neg (show ¬es.isEmpty = true by simpa using hes)]
    rw [hdef, buildMap_eq_spec, List.map_map,
      show ((fun kv => TableRow.mk ((kv.1 : ℚ) * tol)
          (List.insertionSort (fun a b : ℚ × Str => a.1 ≤ b.1) kv.2)) ∘
        fun k => (k, (es.filter fun e => y_key tol e.y = k).map fun e => (e.x, e.text))) =
        (fun k : ℤ => TableRow.mk ((k : ℚ) * tol)
          (List.insertionSort (fun a b : ℚ × Str => a.1 ≤ b.1)
            ((es.filter fun e => y_key tol e.y = k).map fun e => (e.x, e.text))))
        from rfl]
    have hkeyspw : (dedupConsec (List.insertionSort (fun a b : ℤ => a ≤ b)
        (es.map fun e => y_key tol e.y))).Pairwise (· < ·) :=
      dedupConsec_pairwise (List.sorted_insertionSort _ _)
    have hrowspw : ((dedupConsec (List.insertionSort (fun a b : ℤ => a ≤ b)
        (es.map fun e => y_key tol e.y))).map
          (fun k : ℤ => TableRow.mk ((k : ℚ) * tol)
            (List.insertionSort (fun a b : ℚ × Str => a.1 ≤ b.1)
              ((es.filter fun e => y_key tol e.y = k).map fun e =>
                (e.x, e.text))))).Pairwise (fun a b : TableRow => a.y < b.y) := by
      refine List.Pairwise.map _ ?_ hkeyspw
      intro a b hab
      exact mul_lt_mul_of_pos_right (by exact_mod_cast hab) htol
    rw [insertionSort_desc_eq_reverse _ hrowspw]
    unfold rows_spec
    rfl

/-- Claim C8 witness: the refinement at a concrete fragment list and the
concrete tolerance 3, two fragments sharing a bucket. -/
theorem group_into_rows_matches_spec_witness :
    group_into_rows [TextElement.mk "A".toList 50 99, TextElement.mk "B".toList 10 100] 3 =
      rows_spec [TextElement.mk "A".toList 50 99, TextElement.mk "B".toList 10 100] 3 :=
  group_into_rows_matches_spec.1 _ 3 (by decide)

end BicExporter
